import Mathlib

/-!
# flatten-json: a shallow embedding of `main.go`

The development follows `src/main.go`:

* `JValue` is the dynamic value stored in an `any` (what `json.Unmarshal`
  stores there, plus one constructor for every other dynamic type, which is
  what the `default:` branches of the type switches see);
* `record` is `map[string]string`; a Go map is a list of entries with
  `mapLookup` (`m[k]`) and `mapAssign` (`m[k] = v`); the order of the list is
  the order in which `range` visits the entries;
* `flatten`, `readAndClose` and `tabular` are translated statement by
  statement; the `csv.Writer` is modelled by the rows it has accepted.

Go strings holding valid UTF-8 are Lean `String`s; byte-wise comparison of
valid UTF-8 is comparison by code point, which is the order of `String`.
-/

namespace FlattenJson

/-! ## Data model -/

/-- The `float64` stored for a JSON number, as its IEEE-754 bit pattern. -/
structure float64 where
  bits : Nat
deriving DecidableEq, Repr

/-- The dynamic value held by an `any`. `json.Unmarshal` produces the first
six shapes; `other` stands for a value of any other Go type, given by what
`%T` and `%v` print for it. An object lists its members in the order `range` visits
them. -/
inductive JValue where
  | bool (t : Bool)
  | num (t : float64)
  | str (t : String)
  | null
  | arr (t : List JValue)
  | obj (t : List (String × JValue))
  | other (goType goValue : String)
deriving Repr

/-- The Go `type record map[string]string`. -/
abbrev record := List (String × String)

/-- The errors that the functions return. -/
inductive GoError where
  /-- A `*strconv.NumError` whose `Err` is `ErrSyntax`. -/
  | numSyntax (func num : String)
  /-- A `*strconv.NumError` whose `Err` is `ErrRange`. -/
  | numRange (func num : String)
  /-- The error made by `fmt.Errorf`, with its formatted message. -/
  | errorf (msg : String)
  /-- The `errInvalidDelim` of `encoding/csv`. -/
  | invalidDelim
  /-- An error of `io.ReadAll`, `json.Unmarshal` or of opening an input. -/
  | external (msg : String)
deriving DecidableEq, Repr

deriving instance DecidableEq for Except

/-- How a call ends: it returns a value with a nil error, it returns a
non-nil error (and a nil value), or it panics and does not return. -/
inductive Result (α : Type) where
  | ok (a : α)
  | error (e : GoError)
  | panic (msg : String)
deriving DecidableEq, Repr

/-! ## Go maps -/

/-- The keys of a map, in `range` order. -/
def mapKeys {α : Type} (m : List (String × α)) : List String :=
  m.map Prod.fst

/-- The lookup `m[k]`, `none` when `k` is not a key. -/
def mapLookup {α : Type} : List (String × α) → String → Option α
  | [], _ => none
  | (k', v) :: m, k => if k' = k then some v else mapLookup m k

/-- The assignment `m[k] = v`: the entry of `k` is replaced, or added. -/
def mapAssign {α : Type} : List (String × α) → String → α → List (String × α)
  | [], k, v => [(k, v)]
  | (k', v') :: m, k, v =>
    if k' = k then (k, v) :: m else (k', v') :: mapAssign m k v

/-- The index expression `jsonRecord[k]` on a `record`: the zero value `""`
when `k` is not a key. -/
def recordIndex (m : record) (k : String) : String :=
  (mapLookup m k).getD ""

/-- The index expression `b[skipID]` on a `map[string]any`: the zero value
`nil` when `skipID` is not a key. -/
def objIndex (b : List (String × JValue)) (k : String) : JValue :=
  (mapLookup b k).getD JValue.null

/-! ## Library functions -/

/-- The value of a decimal digit, `none` for any other character. -/
def digitVal (c : Char) : Option Nat :=
  if '0' ≤ c ∧ c ≤ '9' then some (c.toNat - '0'.toNat) else none

/-- The loop of `strconv.ParseUint(s, 10, 64)` over the bytes of `s`, `n`
being the number read so far: `false` is the syntax error of a byte that is
no digit, `true` the range error of a number that does not fit 64 bits,
whichever the loop meets first. -/
def parseUintLoop : List Char → Nat → Except Bool Nat
  | [], n => .ok n
  | c :: cs, n =>
    match digitVal c with
    | none => .error false
    | some d =>
      if 18446744073709551616 ≤ n * 10 + d then .error true
      else parseUintLoop cs (n * 10 + d)

/-- The `strconv.Atoi` on a 64-bit platform: an optional sign, then at least
one decimal digit and nothing else; the value must fit an `int`. -/
def Atoi (s : String) : Except GoError Int :=
  let neg : Bool := s.data.head? = some '-'
  let digits : List Char :=
    match s.data with
    | '-' :: cs => cs
    | '+' :: cs => cs
    | cs => cs
  if digits = [] then .error (.numSyntax "Atoi" s)
  else
    match parseUintLoop digits 0 with
    | .error false => .error (.numSyntax "Atoi" s)
    | .error true => .error (.numRange "Atoi" s)
    | .ok un =>
      if !neg ∧ 9223372036854775808 ≤ un then .error (.numRange "Atoi" s)
      else if neg ∧ 9223372036854775808 < un then .error (.numRange "Atoi" s)
      else .ok (if neg then -(un : Int) else (un : Int))

/-- The `strconv.Itoa`. -/
def Itoa (i : Int) : String :=
  if i < 0 then "-" ++ Nat.repr i.natAbs else Nat.repr i.natAbs

/-- The `strconv.FormatBool`. -/
def FormatBool (b : Bool) : String :=
  if b then "true" else "false"

/-- The `sort.Strings`: the list in ascending order of Go's `<` on strings,
which compares byte by byte and so, on valid UTF-8, code point by code
point. -/
def sortStrings (x : List String) : List String :=
  x.insertionSort (fun a b => a.data ≤ b.data)

/-- What the verb `%T` prints for a value. -/
def typeName : JValue → String
  | .bool _ => "bool"
  | .num _ => "float64"
  | .str _ => "string"
  | .null => "<nil>"
  | .arr _ => "[]interface \x7b\x7d"
  | .obj _ => "map[string]interface \x7b\x7d"
  | .other goType _ => goType

/-! ## `flatten` -/

/-- The prefix of a member `k` below `p`: `p += "."` when `p != ""`, then
`p += k`. -/
def joinKey (p k : String) : String :=
  (if p ≠ "" then p ++ "." else p) ++ k

/-- The prefix of element `i` below `p`. -/
def indexKey (p : String) (i : Nat) : String :=
  p ++ "[" ++ Itoa (i : Int) ++ "]"

mutual
/-- The `flatten(prefix, jsonObject, target)` of `main.go`: the target after
the call, or the error returned. `FormatFloat` is
`strconv.FormatFloat(t, 'f', -1, 64)`. -/
def flatten (FormatFloat : float64 → String) (pfx : String) :
    JValue → record → Except GoError record
  | .bool t, target => .ok (mapAssign target pfx (FormatBool t))
  | .num t, target => .ok (mapAssign target pfx (FormatFloat t))
  | .str t, target => .ok (mapAssign target pfx t)
  | .null, target => .ok (mapAssign target pfx "null")
  | .arr t, target => flattenElems FormatFloat pfx 0 t target
  | .obj t, target => flattenMembers FormatFloat pfx t target
  | .other _ goValue, _ =>
    .error (.errorf ("cannot flatten leaf node: " ++ goValue))
/-- The loop `for i, v := range t` of the array case, from index `i` on. -/
def flattenElems (FormatFloat : float64 → String) (pfx : String) (i : Nat) :
    List JValue → record → Except GoError record
  | [], target => .ok target
  | v :: rest, target =>
    match flatten FormatFloat (indexKey pfx i) v target with
    | .error err => .error err
    | .ok target' => flattenElems FormatFloat pfx (i + 1) rest target'
/-- The loop `for k, v := range t` of the object case. -/
def flattenMembers (FormatFloat : float64 → String) (pfx : String) :
    List (String × JValue) → record → Except GoError record
  | [], target => .ok target
  | (k, v) :: rest, target =>
    match flatten FormatFloat (joinKey pfx k) v target with
    | .error err => .error err
    | .ok target' => flattenMembers FormatFloat pfx rest target'
end

mutual
/-- The values that `json.Unmarshal` stores in an `any`: no `other` at any
depth. -/
def JValue.isJSON : JValue → Bool
  | .arr t => allJSON t
  | .obj t => allMembersJSON t
  | .other _ _ => false
  | _ => true
/-- Every value of the list is one that `json.Unmarshal` produces. -/
def allJSON : List JValue → Bool
  | [] => true
  | v :: rest => v.isJSON && allJSON rest
/-- Every member's value is one that `json.Unmarshal` produces. -/
def allMembersJSON : List (String × JValue) → Bool
  | [] => true
  | (_, v) :: rest => v.isJSON && allMembersJSON rest
end

/-- A JSON boolean, number, string or null. -/
def JValue.isScalar : JValue → Bool
  | .bool _ => true
  | .num _ => true
  | .str _ => true
  | .null => true
  | _ => false

/-! ## `readAndClose` -/

/-- The loop `for len(skip) > 0` of `readAndClose`: the value and the prefix
reached when the steps are used up, the error returned on the way, or the
panic of the index expression `b[i]`, with the text of the Go runtime:
`index out of range [i]` for a negative index and
`index out of range [i] with length n` for one that is too large. -/
def skipLoop : List String → JValue → String → Result (JValue × String)
  | [], base, pfx => .ok (base, pfx)
  | skipID :: skip, base, pfx =>
    match base with
    | .obj b => skipLoop skip (objIndex b skipID) (joinKey pfx skipID)
    | .arr b =>
      match Atoi skipID with
      | .error err => .error err
      | .ok i =>
        if 0 ≤ i ∧ i < (b.length : Int) then
          skipLoop skip (b.getD i.toNat JValue.null) (joinKey pfx skipID)
        else if i < 0 then
          .panic ("runtime error: index out of range [" ++ Itoa i ++ "]")
        else
          .panic ("runtime error: index out of range [" ++ Itoa i ++
            "] with length " ++ Itoa (b.length : Int))
    | _ =>
      .error (.errorf ("type of base " ++ typeName base ++
        " isn't skippable by " ++ skipID))

/-- The loop `for i, b := range baseArray` of `readAndClose`: one record per
element, each flattened into a fresh map. -/
def flattenAll (FormatFloat : float64 → String) (pfx : String) :
    List JValue → Except GoError (List record)
  | [] => .ok []
  | b :: rest =>
    match flatten FormatFloat pfx b [] with
    | .error err => .error err
    | .ok rec =>
      match flattenAll FormatFloat pfx rest with
      | .error err => .error err
      | .ok records => .ok (rec :: records)

/-- The `readAndClose(r, skip)` of `main.go`. The reader is given by what
`io.ReadAll` followed by `json.Unmarshal` yields for it: the parsed document
or the error of one of the two. -/
def readAndClose (FormatFloat : float64 → String)
    (r : Except GoError JValue) (skip : List String) : Result (List record) :=
  match r with
  | .error err => .error err
  | .ok base =>
    match skipLoop skip base "" with
    | .error err => .error err
    | .panic msg => .panic msg
    | .ok (base, pfx) =>
      match base with
      | .arr baseArray =>
        match flattenAll FormatFloat pfx baseArray with
        | .error err => .error err
        | .ok records => .ok records
      | _ =>
        -- `%T` is applied to `baseArray`, the nil `[]any` of the failed assertion
        .error (.errorf ("type of baseArray " ++ "[]interface \x7b\x7d" ++
          " isn't []any"))

/-! ## `tabular` -/

/-- The `validDelim` of `encoding/csv`; a `Char` is always a valid rune. -/
def validDelim (r : Char) : Bool :=
  r ≠ Char.ofNat 0 && r ≠ Char.ofNat 34 && r ≠ Char.ofNat 13 &&
    r ≠ Char.ofNat 10 && r ≠ Char.ofNat 0xFFFD

/-- A `csv.Writer` on an output that accepts every byte: its separator and
the rows it has written, oldest first, each as its list of fields. -/
structure Writer where
  Comma : Char
  rows : List (List String)
deriving DecidableEq, Repr

/-- The `(*csv.Writer).Write`: the row is refused when the separator is not
a valid delimiter, and written otherwise. -/
def Writer.Write (w : Writer) (row : List String) : Except GoError Writer :=
  if validDelim w.Comma then .ok { w with rows := w.rows ++ [row] }
  else .error .invalidDelim

/-- The first two loops of `tabular`: the map `columnSet` after every key of
every record has been assigned to it. -/
def columnSet (records : List record) : List (String × Unit) :=
  records.foldl (fun cs rec => (mapKeys rec).foldl (fun cs k => mapAssign cs k ()) cs) []

/-- The slice `columns` of `tabular` after `sort.Strings`. -/
def columns (records : List record) : List String :=
  sortStrings (mapKeys (columnSet records))

/-- The loop `for _, jsonRecord := range records` of `tabular`. -/
def writeRecords (columns : List String) : List record → Writer → Except GoError Writer
  | [], w => .ok w
  | jsonRecord :: rest, w =>
    match w.Write (columns.map (fun k => recordIndex jsonRecord k)) with
    | .error err => .error err
    | .ok w' => writeRecords columns rest w'

/-- The `tabular(records, comma, output)` of `main.go`: the rows written to
`output` when it returns nil, or the error returned. -/
def tabular (records : List record) (comma : Char) : Except GoError (List (List String)) :=
  let w : Writer := { Comma := comma, rows := [] }
  match w.Write (columns records) with
  | .error err => .error err
  | .ok w =>
    match writeRecords (columns records) records w with
    | .error err => .error err
    | .ok w => .ok w.rows

/-! ## Auxiliary definitions for the proofs and the examples -/

mutual
/-- The keys that `flatten` assigns below `pfx`, one for each boolean,
number, string and null of the value, in the order of the assignments. -/
def leafPaths (pfx : String) : JValue → List String
  | .bool _ => [pfx]
  | .num _ => [pfx]
  | .str _ => [pfx]
  | .null => [pfx]
  | .arr t => elemPaths pfx 0 t
  | .obj t => memberPaths pfx t
  | .other _ _ => []
/-- The keys assigned for the elements of an array, from index `i` on. -/
def elemPaths (pfx : String) (i : Nat) : List JValue → List String
  | [] => []
  | v :: rest => leafPaths (indexKey pfx i) v ++ elemPaths pfx (i + 1) rest
/-- The keys assigned for the members of an object. -/
def memberPaths (pfx : String) : List (String × JValue) → List String
  | [] => []
  | (k, v) :: rest => leafPaths (joinKey pfx k) v ++ memberPaths pfx rest
end

/-- A stand-in for `strconv.FormatFloat(t, 'f', -1, 64)` in the worked
examples. It decodes the bit pattern and agrees with `FormatFloat` on the
integers of magnitude below `2^53`, which print as their decimal digits; no
theorem depends on what it returns elsewhere (the text `"?"`). -/
def formatIntegral (x : float64) : String :=
  let sign := if x.bits / 2 ^ 63 % 2 = 1 then "-" else ""
  let e := x.bits / 2 ^ 52 % 2 ^ 11
  let m := x.bits % 2 ^ 52
  if e = 0 ∧ m = 0 then sign ++ "0"
  else if 1023 ≤ e ∧ e ≤ 1075 ∧ (2 ^ 52 + m) % 2 ^ (1075 - e) = 0 then
    sign ++ Nat.repr ((2 ^ 52 + m) / 2 ^ (1075 - e))
  else "?"

/-! ## `process` and `main` -/

/-- The loop `for _, input := range inputs` of `process`, `records` being the
records appended so far. An input is given by what calling it yields: the
error of opening it, or the reader, itself given as for `readAndClose`. -/
def processLoop (FormatFloat : float64 → String) (skip : List String) :
    List (Except GoError (Except GoError JValue)) → List record → Result (List record)
  | [], records => .ok records
  | input :: inputs, records =>
    match input with
    | .error err => .error err
    | .ok r =>
      match readAndClose FormatFloat r skip with
      | .error err => .error err
      | .panic msg => .panic msg
      | .ok recs => processLoop FormatFloat skip inputs (records ++ recs)

/-- The `process(inputs, skip)` of `main.go`. -/
def process (FormatFloat : float64 → String)
    (inputs : List (Except GoError (Except GoError JValue))) (skip : List String) :
    Result (List record) :=
  processLoop FormatFloat skip inputs []

/-- What an element of `inputs` in `main` reads when it is called: standard
input, or the file that `os.Open` is asked for. -/
inductive Source where
  | stdin
  | file (name : String)
deriving DecidableEq, Repr

/-- The slice `inputs` that `main` has built from `flag.Args()` when it calls
`process` (lines 56 to 68); each closure of the loop holds the `arg` of its
own iteration. -/
def mainInputs (args : List String) : List Source :=
  let inputs : List Source :=
    if args.length = 0 ∨ (args.length = 1 ∧ args.head? = some "-") then [Source.stdin]
    else []
  args.foldl (fun inputs arg => inputs ++ [Source.file arg]) inputs

/-! ## Values without a scalar -/

mutual
/-- The value is an array or an object whose tree holds no boolean, number,
string or null (and no value foreign to JSON). -/
def JValue.noScalar : JValue → Bool
  | .arr t => allNoScalar t
  | .obj t => allMembersNoScalar t
  | _ => false
/-- Every value of the list is without a scalar. -/
def allNoScalar : List JValue → Bool
  | [] => true
  | v :: rest => v.noScalar && allNoScalar rest
/-- Every member's value is without a scalar. -/
def allMembersNoScalar : List (String × JValue) → Bool
  | [] => true
  | (_, v) :: rest => v.noScalar && allMembersNoScalar rest
end

/-! ## Leaves and keys -/

/-- The number that a list of decimal digits stands for, most significant
digit first. -/
def digitsValue (cs : List Char) : Nat :=
  cs.foldl (fun acc c => acc * 10 + (c.toNat - '0'.toNat)) 0

mutual
/-- The scalar leaves of a value in the order in which `flatten` meets them,
each with the key it is assigned below `pfx` and the text it is rendered
to. -/
def leafEntries (FormatFloat : float64 → String) (pfx : String) : JValue → record
  | .bool t => [(pfx, FormatBool t)]
  | .num t => [(pfx, FormatFloat t)]
  | .str t => [(pfx, t)]
  | .null => [(pfx, "null")]
  | .arr t => elemEntries FormatFloat pfx 0 t
  | .obj t => memberEntries FormatFloat pfx t
  | .other _ _ => []
/-- The scalar leaves below the elements of an array, from index `i` on. -/
def elemEntries (FormatFloat : float64 → String) (pfx : String) (i : Nat) :
    List JValue → record
  | [] => []
  | v :: rest =>
    leafEntries FormatFloat (indexKey pfx i) v ++ elemEntries FormatFloat pfx (i + 1) rest
/-- The scalar leaves below the members of an object. -/
def memberEntries (FormatFloat : float64 → String) (pfx : String) :
    List (String × JValue) → record
  | [] => []
  | (k, v) :: rest =>
    leafEntries FormatFloat (joinKey pfx k) v ++ memberEntries FormatFloat pfx rest
end

/-- The key is not empty and holds neither `.` nor `[`. -/
def plainKey (k : String) : Bool :=
  k ≠ "" && k.data.all (fun c => c ≠ '.' && c ≠ '[')

mutual
/-- In every object of the value the keys are pairwise different, as in a Go
map, and each of them is plain. -/
def JValue.plainKeys : JValue → Bool
  | .arr t => allPlainKeys t
  | .obj t => membersPlainKeys t
  | _ => true
/-- Every value of the list has plain keys. -/
def allPlainKeys : List JValue → Bool
  | [] => true
  | v :: rest => v.plainKeys && allPlainKeys rest
/-- The members have plain keys, pairwise different, and values with plain
keys. -/
def membersPlainKeys : List (String × JValue) → Bool
  | [] => true
  | (k, v) :: rest =>
    plainKey k && decide (k ∉ mapKeys rest) && v.plainKeys && membersPlainKeys rest
end

/-! ## The same value in another traversal order -/

mutual
/-- Every part of the first value is found at the same place in the second:
scalars are equal, arrays have the same length and agree element by
element, and each member of an object of the first value has its key in
the corresponding object of the second, whatever the order of the members
there. -/
def JValue.within : JValue → JValue → Bool
  | .bool a, .bool b => a == b
  | .num a, .num b => a == b
  | .str a, .str b => a == b
  | .null, .null => true
  | .arr vs, .arr ws => elemsWithin vs ws
  | .obj ms, .obj ns => membersWithin ms ns
  | _, _ => false
/-- The lists have the same length and agree element by element. -/
def elemsWithin : List JValue → List JValue → Bool
  | [], [] => true
  | v :: vs, w :: ws => v.within w && elemsWithin vs ws
  | _, _ => false
/-- Each member of the first list has its key in the second, with a value
that it is within. -/
def membersWithin : List (String × JValue) → List (String × JValue) → Bool
  | [], _ => true
  | (k, v) :: ms, ns =>
    (match mapLookup ns k with
      | some w => v.within w
      | none => false) && membersWithin ms ns
end

/-- The two values are the same JSON value: they differ at most in the order
in which the members of their objects are listed, which is the order in
which `range` visits them. -/
def JValue.sameJSON (v w : JValue) : Bool :=
  v.within w && w.within v

/-! # Theorems -/

/-! ## Go maps: lemmas -/

theorem mem_mapKeys_mapAssign {α : Type} (m : List (String × α)) (k : String) (v : α)
    (key : String) : key ∈ mapKeys (mapAssign m k v) ↔ key = k ∨ key ∈ mapKeys m := by
  induction m with
  | nil => simp [mapAssign, mapKeys]
  | cons e m ih =>
    obtain ⟨k', v'⟩ := e
    by_cases hk : k' = k
    · subst hk
      simp [mapAssign, mapKeys]
    · simp only [mapAssign, hk, if_false]
      simp only [mapKeys, List.map_cons, List.mem_cons] at ih ⊢
      rw [ih]
      tauto

theorem nodup_mapKeys_mapAssign {α : Type} (m : List (String × α)) (k : String) (v : α)
    (h : (mapKeys m).Nodup) : (mapKeys (mapAssign m k v)).Nodup := by
  induction m with
  | nil => simp [mapAssign, mapKeys]
  | cons e m ih =>
    obtain ⟨k', v'⟩ := e
    have h' : k' ∉ mapKeys m ∧ (mapKeys m).Nodup := by
      simpa [mapKeys] using h
    by_cases hk : k' = k
    · subst hk
      simpa [mapAssign, mapKeys] using h
    · simp only [mapAssign, hk, if_false]
      have hmem := mem_mapKeys_mapAssign m k v k'
      have ih' := ih h'.2
      simp only [mapKeys, List.map_cons, List.nodup_cons] at hmem ih' ⊢
      refine ⟨?_, ih'⟩
      rw [hmem]
      rintro (h1 | h1)
      · exact hk h1
      · exact h'.1 (by simpa [mapKeys] using h1)

theorem mapLookup_eq_none_iff {α : Type} (m : List (String × α)) (k : String) :
    mapLookup m k = none ↔ k ∉ mapKeys m := by
  induction m with
  | nil => simp [mapLookup, mapKeys]
  | cons e m ih =>
    obtain ⟨k', v'⟩ := e
    by_cases hk : k' = k
    · simp [mapLookup, mapKeys, hk]
    · have hk' : ¬ k = k' := fun h => hk h.symm
      simp only [mapLookup, hk, if_false, ih]
      simp [mapKeys, hk']

/-! ## `tabular`: lemmas -/

theorem mem_foldl_assign (ks : List String) (cs : List (String × Unit)) (key : String) :
    key ∈ mapKeys (ks.foldl (fun cs k => mapAssign cs k ()) cs) ↔
      key ∈ mapKeys cs ∨ key ∈ ks := by
  induction ks generalizing cs with
  | nil => simp
  | cons k ks ih =>
    simp only [List.foldl_cons, List.mem_cons]
    rw [ih, mem_mapKeys_mapAssign]
    tauto

theorem nodup_foldl_assign (ks : List String) (cs : List (String × Unit))
    (h : (mapKeys cs).Nodup) :
    (mapKeys (ks.foldl (fun cs k => mapAssign cs k ()) cs)).Nodup := by
  induction ks generalizing cs with
  | nil => simpa using h
  | cons k ks ih =>
    simp only [List.foldl_cons]
    exact ih _ (nodup_mapKeys_mapAssign cs k () h)

theorem mem_columnSet_aux (records : List record) (cs : List (String × Unit)) (key : String) :
    key ∈ mapKeys (records.foldl
        (fun cs rec => (mapKeys rec).foldl (fun cs k => mapAssign cs k ()) cs) cs) ↔
      key ∈ mapKeys cs ∨ ∃ r ∈ records, key ∈ mapKeys r := by
  induction records generalizing cs with
  | nil => simp
  | cons r records ih =>
    simp only [List.foldl_cons]
    rw [ih, mem_foldl_assign]
    simp only [List.mem_cons, exists_eq_or_imp]
    tauto

theorem nodup_columnSet_aux (records : List record) (cs : List (String × Unit))
    (h : (mapKeys cs).Nodup) :
    (mapKeys (records.foldl
        (fun cs rec => (mapKeys rec).foldl (fun cs k => mapAssign cs k ()) cs) cs)).Nodup := by
  induction records generalizing cs with
  | nil => simpa using h
  | cons r records ih =>
    simp only [List.foldl_cons]
    exact ih _ (nodup_foldl_assign _ cs h)

theorem mem_columnSet (records : List record) (key : String) :
    key ∈ mapKeys (columnSet records) ↔ ∃ r ∈ records, key ∈ mapKeys r := by
  unfold columnSet
  rw [mem_columnSet_aux]
  simp [mapKeys]

theorem nodup_columnSet (records : List record) : (mapKeys (columnSet records)).Nodup :=
  nodup_columnSet_aux records [] (by simp [mapKeys])

theorem sortStrings_perm (x : List String) : (sortStrings x).Perm x :=
  List.perm_insertionSort _ x

theorem sortStrings_sorted (x : List String) :
    (sortStrings x).Pairwise (fun a b => a.data ≤ b.data) := by
  haveI : IsTotal String (fun a b => a.data ≤ b.data) := ⟨fun a b => le_total a.data b.data⟩
  haveI : IsTrans String (fun a b => a.data ≤ b.data) :=
    ⟨fun a b c hab hbc => le_trans hab hbc⟩
  exact List.sorted_insertionSort (fun a b : String => a.data ≤ b.data) x

theorem sortStrings_strict (x : List String) (h : x.Nodup) :
    (sortStrings x).Pairwise (· < ·) := by
  have hn : (sortStrings x).Nodup := (sortStrings_perm x).nodup_iff.mpr h
  have hs := sortStrings_sorted x
  refine (hs.and hn).imp ?_
  intro a b hab
  rw [String.lt_iff_toList_lt]
  refine lt_of_le_of_ne hab.1 ?_
  intro hdata
  exact hab.2 (String.ext hdata)

theorem mem_columns (records : List record) (key : String) :
    key ∈ columns records ↔ ∃ r ∈ records, key ∈ mapKeys r := by
  unfold columns
  rw [(sortStrings_perm _).mem_iff, mem_columnSet]

theorem columns_strict (records : List record) : (columns records).Pairwise (· < ·) :=
  sortStrings_strict _ (nodup_columnSet records)

theorem writeRecords_ok (cols : List String) (records : List record) (w : Writer)
    (h : validDelim w.Comma = true) :
    writeRecords cols records w =
      .ok { w with rows := w.rows ++ records.map (fun r => cols.map (fun k => recordIndex r k)) } := by
  induction records generalizing w with
  | nil => simp [writeRecords]
  | cons r records ih =>
    simp only [writeRecords, Writer.Write, h, if_true]
    rw [ih { Comma := w.Comma, rows := w.rows ++ [cols.map (fun k => recordIndex r k)] } h]
    simp

theorem tabular_ok (records : List record) (comma : Char) (h : validDelim comma = true) :
    tabular records comma =
      .ok (columns records ::
        records.map (fun r => (columns records).map (fun k => recordIndex r k))) := by
  simp only [tabular, Writer.Write, h, if_true]
  rw [writeRecords_ok _ _ _ h]
  simp

theorem tabular_invalidDelim (records : List record) (comma : Char)
    (h : validDelim comma = false) : tabular records comma = .error .invalidDelim := by
  simp [tabular, Writer.Write, h]

/-! ## The table written by `tabular` -/

/-- C1: for every list of records, `tabular` (with a separator the writer
accepts) returns nil and the first row it writes, the header, lists the keys
occurring in at least one record in strictly ascending order: every header
entry is a key of some record, every key of every record is in the header,
and no entry is repeated. -/
theorem tabular_header_sorted_union (records : List record) (comma : Char)
    (hc : validDelim comma = true) :
    ∃ (header : List String) (rows : List (List String)), tabular records comma = .ok (header :: rows) ∧
      header.Pairwise (· < ·) ∧ header.Nodup ∧
      (∀ key, key ∈ header ↔ ∃ r ∈ records, key ∈ mapKeys r) := by
  refine ⟨columns records, _, tabular_ok records comma hc, columns_strict records, ?_,
    mem_columns records⟩
  exact (columns_strict records).imp (fun h => ne_of_lt h)

theorem tabular_header_sorted_union_witness :
    validDelim ',' = true ∧
    ∃ (header : List String) (rows : List (List String)),
      tabular [[("b.c", "true"), ("a", "1")], [("a", "2"), ("d", "x")]] ',' =
        .ok (header :: rows) ∧
      header.Pairwise (· < ·) ∧ header.Nodup ∧
      (∀ key, key ∈ header ↔
        ∃ r ∈ [[("b.c", "true"), ("a", "1")], [("a", "2"), ("d", "x")]], key ∈ mapKeys r) :=
  ⟨by decide, tabular_header_sorted_union _ ',' (by decide)⟩

/-- C2: for every list of records, `tabular` (with a separator the writer
accepts) writes after the header one row per record, in the order of the
list; row `j` has as many fields as the header, and its field `i` is the
value that record `j` holds for header column `i`, or the empty string when
the record has no such key. -/
theorem tabular_rows_per_record (records : List record) (comma : Char)
    (hc : validDelim comma = true) :
    ∃ (header : List String) (rows : List (List String)), tabular records comma = .ok (header :: rows) ∧
      rows.length = records.length ∧
      ∀ (j : Nat) (r : record), records[j]? = some r →
        ∃ row : List String, rows[j]? = some row ∧ row.length = header.length ∧
          ∀ (i : Nat) (k : String), header[i]? = some k →
            ∃ field : String, row[i]? = some field ∧
              (∀ v, mapLookup r k = some v → field = v) ∧
              (k ∉ mapKeys r → field = "") := by
  refine ⟨columns records, _, tabular_ok records comma hc, by simp, ?_⟩
  intro j r hj
  refine ⟨(columns records).map (fun k => recordIndex r k), by simp [hj], by simp, ?_⟩
  intro i k hi
  refine ⟨recordIndex r k, by simp [hi], ?_, ?_⟩
  · intro v hv
    simp [recordIndex, hv]
  · intro hk
    simp [recordIndex, (mapLookup_eq_none_iff r k).mpr hk]

theorem tabular_rows_per_record_witness :
    validDelim ',' = true ∧
    ∃ (header : List String) (rows : List (List String)),
      tabular [[("a", "1"), ("b.c", "true")], [("a", "2")]] ',' = .ok (header :: rows) ∧
      rows.length = [[("a", "1"), ("b.c", "true")], [("a", "2")]].length ∧
      ∀ (j : Nat) (r : record), [[("a", "1"), ("b.c", "true")], [("a", "2")]][j]? = some r →
        ∃ row : List String, rows[j]? = some row ∧ row.length = header.length ∧
          ∀ (i : Nat) (k : String), header[i]? = some k →
            ∃ field : String, row[i]? = some field ∧
              (∀ v, mapLookup r k = some v → field = v) ∧
              (k ∉ mapKeys r → field = "") :=
  ⟨by decide, tabular_rows_per_record _ ',' (by decide)⟩

/-- The example of C2: the records `{a:1, b.c:true}` and `{a:2}` give the
header `a, b.c` and the rows `1, true` and `2, ""`. -/
theorem tabular_example :
    tabular [[("a", "1"), ("b.c", "true")], [("a", "2")]] ',' =
      .ok [["a", "b.c"], ["1", "true"], ["2", ""]] := by
  decide

/-! ## `flatten`: lemmas -/

theorem Itoa_natCast (n : Nat) : Itoa (n : Int) = Nat.repr n := by
  simp [Itoa]

theorem joinKey_eq (p k : String) : joinKey p k = if p = "" then k else p ++ "." ++ k := by
  unfold joinKey
  by_cases h : p = ""
  · subst h
    simp
  · simp [h, String.append_assoc]

theorem isJSON_of_mem_allJSON : ∀ (vs : List JValue), allJSON vs = true →
    ∀ v ∈ vs, v.isJSON = true
  | [], _, v, hv => by simp at hv
  | w :: rest, h, v, hv => by
    simp only [allJSON, Bool.and_eq_true] at h
    rcases List.mem_cons.mp hv with rfl | hv
    · exact h.1
    · exact isJSON_of_mem_allJSON rest h.2 v hv

theorem isJSON_of_mem_allMembersJSON : ∀ (ms : List (String × JValue)),
    allMembersJSON ms = true → ∀ kv ∈ ms, kv.2.isJSON = true
  | [], _, kv, hkv => by simp at hkv
  | (k, w) :: rest, h, kv, hkv => by
    simp only [allMembersJSON, Bool.and_eq_true] at h
    rcases List.mem_cons.mp hkv with rfl | hkv
    · exact h.1
    · exact isJSON_of_mem_allMembersJSON rest h.2 kv hkv

mutual
theorem flatten_ok_of_isJSON (FF : float64 → String) (pfx : String) :
    ∀ (v : JValue) (t : record), v.isJSON = true → ∃ r, flatten FF pfx v t = .ok r
  | .bool _, _, _ => ⟨_, rfl⟩
  | .num _, _, _ => ⟨_, rfl⟩
  | .str _, _, _ => ⟨_, rfl⟩
  | .null, _, _ => ⟨_, rfl⟩
  | .arr vs, t, h => by
    rw [flatten]
    exact flattenElems_ok_of_allJSON FF pfx 0 vs t (by simpa [JValue.isJSON] using h)
  | .obj ms, t, h => by
    rw [flatten]
    exact flattenMembers_ok_of_allJSON FF pfx ms t (by simpa [JValue.isJSON] using h)
  | .other _ _, _, h => by simp [JValue.isJSON] at h
theorem flattenElems_ok_of_allJSON (FF : float64 → String) (pfx : String) (i : Nat) :
    ∀ (vs : List JValue) (t : record), allJSON vs = true →
      ∃ r, flattenElems FF pfx i vs t = .ok r
  | [], _, _ => ⟨_, rfl⟩
  | v :: rest, t, h => by
    simp only [allJSON, Bool.and_eq_true] at h
    obtain ⟨r, hr⟩ := flatten_ok_of_isJSON FF (indexKey pfx i) v t h.1
    rw [flattenElems, hr]
    exact flattenElems_ok_of_allJSON FF pfx (i + 1) rest r h.2
theorem flattenMembers_ok_of_allJSON (FF : float64 → String) (pfx : String) :
    ∀ (ms : List (String × JValue)) (t : record), allMembersJSON ms = true →
      ∃ r, flattenMembers FF pfx ms t = .ok r
  | [], _, _ => ⟨_, rfl⟩
  | (k, v) :: rest, t, h => by
    simp only [allMembersJSON, Bool.and_eq_true] at h
    obtain ⟨r, hr⟩ := flatten_ok_of_isJSON FF (joinKey pfx k) v t h.1
    rw [flattenMembers, hr]
    exact flattenMembers_ok_of_allJSON FF pfx rest r h.2
end

mutual
theorem mem_mapKeys_flatten (FF : float64 → String) (pfx : String) :
    ∀ (v : JValue) (t r : record), flatten FF pfx v t = .ok r →
      ∀ key, key ∈ mapKeys r ↔ key ∈ mapKeys t ∨ key ∈ leafPaths pfx v
  | .bool b, t, r, h, key => by
    simp only [flatten, Except.ok.injEq] at h
    subst h
    rw [mem_mapKeys_mapAssign]
    simp [leafPaths, or_comm]
  | .num x, t, r, h, key => by
    simp only [flatten, Except.ok.injEq] at h
    subst h
    rw [mem_mapKeys_mapAssign]
    simp [leafPaths, or_comm]
  | .str s, t, r, h, key => by
    simp only [flatten, Except.ok.injEq] at h
    subst h
    rw [mem_mapKeys_mapAssign]
    simp [leafPaths, or_comm]
  | .null, t, r, h, key => by
    simp only [flatten, Except.ok.injEq] at h
    subst h
    rw [mem_mapKeys_mapAssign]
    simp [leafPaths, or_comm]
  | .arr vs, t, r, h, key => by
    rw [flatten] at h
    rw [leafPaths]
    exact mem_mapKeys_flattenElems FF pfx 0 vs t r h key
  | .obj ms, t, r, h, key => by
    rw [flatten] at h
    rw [leafPaths]
    exact mem_mapKeys_flattenMembers FF pfx ms t r h key
  | .other _ _, t, r, h, key => by simp [flatten] at h
theorem mem_mapKeys_flattenElems (FF : float64 → String) (pfx : String) (i : Nat) :
    ∀ (vs : List JValue) (t r : record), flattenElems FF pfx i vs t = .ok r →
      ∀ key, key ∈ mapKeys r ↔ key ∈ mapKeys t ∨ key ∈ elemPaths pfx i vs
  | [], t, r, h, key => by
    simp only [flattenElems, Except.ok.injEq] at h
    subst h
    simp [elemPaths]
  | v :: rest, t, r, h, key => by
    rw [flattenElems] at h
    cases hv : flatten FF (indexKey pfx i) v t with
    | error e => simp [hv] at h
    | ok t' =>
      rw [hv] at h
      have h1 := mem_mapKeys_flatten FF (indexKey pfx i) v t t' hv key
      have h2 := mem_mapKeys_flattenElems FF pfx (i + 1) rest t' r h key
      rw [h2, h1, elemPaths, List.mem_append]
      tauto
theorem mem_mapKeys_flattenMembers (FF : float64 → String) (pfx : String) :
    ∀ (ms : List (String × JValue)) (t r : record), flattenMembers FF pfx ms t = .ok r →
      ∀ key, key ∈ mapKeys r ↔ key ∈ mapKeys t ∨ key ∈ memberPaths pfx ms
  | [], t, r, h, key => by
    simp only [flattenMembers, Except.ok.injEq] at h
    subst h
    simp [memberPaths]
  | (k, v) :: rest, t, r, h, key => by
    rw [flattenMembers] at h
    cases hv : flatten FF (joinKey pfx k) v t with
    | error e => simp [hv] at h
    | ok t' =>
      rw [hv] at h
      have h1 := mem_mapKeys_flatten FF (joinKey pfx k) v t t' hv key
      have h2 := mem_mapKeys_flattenMembers FF pfx rest t' r h key
      rw [h2, h1, memberPaths, List.mem_append]
      tauto
end

theorem mem_memberPaths (pfx : String) (key : String) :
    ∀ (ms : List (String × JValue)),
      key ∈ memberPaths pfx ms ↔ ∃ kv ∈ ms, key ∈ leafPaths (joinKey pfx kv.1) kv.2
  | [] => by simp [memberPaths]
  | (k, v) :: rest => by
    rw [memberPaths, List.mem_append, mem_memberPaths pfx key rest]
    simp

/-! ## `flatten`: claims -/

/-- C4: for every prefix (the empty one too), flattening a boolean, a string
or null into an empty target returns nil and leaves a record with exactly
one entry; its key is the prefix and its value is `true` or `false` for a
boolean, the string itself for a string, and the text `null` for null. -/
theorem flatten_scalar_single_entry (FF : float64 → String) (pfx : String) :
    flatten FF pfx (.bool true) [] = .ok [(pfx, "true")] ∧
    flatten FF pfx (.bool false) [] = .ok [(pfx, "false")] ∧
    (∀ s : String, flatten FF pfx (.str s) [] = .ok [(pfx, s)]) ∧
    flatten FF pfx .null [] = .ok [(pfx, "null")] ∧
    flatten FF "" (.bool true) [] = .ok [("", "true")] ∧
    (∀ s : String, flatten FF "" (.str s) [] = .ok [("", s)]) ∧
    flatten FF "" .null [] = .ok [("", "null")] :=
  ⟨rfl, rfl, fun _ => rfl, rfl, rfl, fun _ => rfl, rfl⟩

theorem foldl_flatten_error (FF : float64 → String) (pfx : String) (e : GoError) :
    ∀ (l : List (Nat × JValue)),
      l.foldl (fun (acc : Except GoError record) iv =>
        match acc with
        | .error err => .error err
        | .ok t => flatten FF (pfx ++ "[" ++ Nat.repr iv.1 ++ "]") iv.2 t) (.error e) =
      .error e
  | [] => rfl
  | _ :: l => by
    rw [List.foldl_cons]
    exact foldl_flatten_error FF pfx e l

theorem flattenElems_eq_foldl (FF : float64 → String) (pfx : String) :
    ∀ (vs : List JValue) (i : Nat) (target : record),
      flattenElems FF pfx i vs target =
        (vs.enumFrom i).foldl (fun (acc : Except GoError record) iv =>
          match acc with
          | .error err => .error err
          | .ok t => flatten FF (pfx ++ "[" ++ Nat.repr iv.1 ++ "]") iv.2 t) (.ok target)
  | [], i, target => rfl
  | v :: rest, i, target => by
    rw [flattenElems, List.enumFrom_cons, List.foldl_cons]
    have hk : indexKey pfx i = pfx ++ "[" ++ Nat.repr i ++ "]" := by
      rw [indexKey, Itoa_natCast]
    simp only [hk]
    cases hv : flatten FF (pfx ++ "[" ++ Nat.repr i ++ "]") v target with
    | error e => exact (foldl_flatten_error FF pfx e _).symm
    | ok t => exact flattenElems_eq_foldl FF pfx rest (i + 1) t

/-- C5: for every prefix, array and target, `flatten(prefix, array, target)`
ends as the loop does that flattens the elements one after the other, in
index order from index 0, into the same target, element `i` under the prefix
`prefix + "[" + decimal(i) + "]"`, and stops at the first error. -/
theorem flatten_array_eq_indexed_fold (FF : float64 → String) (pfx : String)
    (vs : List JValue) (target : record) :
    flatten FF pfx (.arr vs) target =
      vs.enum.foldl (fun (acc : Except GoError record) iv =>
        match acc with
        | .error err => .error err
        | .ok t => flatten FF (pfx ++ "[" ++ Nat.repr iv.1 ++ "]") iv.2 t) (.ok target) := by
  rw [flatten]
  exact flattenElems_eq_foldl FF pfx vs 0 target

/-- An instance of C5: a two-element array below the prefix `p`. -/
theorem flatten_array_example :
    flatten formatIntegral "p" (.arr [.str "x", .arr [.null]]) [("q", "z")] =
      .ok [("q", "z"), ("p[0]", "x"), ("p[1][0]", "null")] := by
  decide

/-- C6: for every prefix and every JSON object, `flatten` into an empty
target returns nil, and the keys of the record are the union, over the
members `(k, v)` of the object, of the keys of `flatten(p, v)` into an empty
target, where `p` is `k` when the prefix is empty and
`prefix + "." + k` otherwise. -/
theorem flatten_object_keys_union (FF : float64 → String) (pfx : String)
    (members : List (String × JValue)) (hjson : (JValue.obj members).isJSON = true) :
    ∃ r, flatten FF pfx (.obj members) [] = .ok r ∧
      ∀ key, key ∈ mapKeys r ↔
        ∃ k v, (k, v) ∈ members ∧
          ∃ r', flatten FF (if pfx = "" then k else pfx ++ "." ++ k) v [] = .ok r' ∧
            key ∈ mapKeys r' := by
  obtain ⟨r, hr⟩ := flatten_ok_of_isJSON FF pfx (.obj members) [] hjson
  refine ⟨r, hr, fun key => ?_⟩
  have hms : allMembersJSON members = true := by simpa [JValue.isJSON] using hjson
  rw [mem_mapKeys_flatten FF pfx _ _ _ hr key, leafPaths, mem_memberPaths]
  constructor
  · rintro (h | ⟨⟨k, v⟩, hmem, hkey⟩)
    · simp [mapKeys] at h
    · obtain ⟨r', hr'⟩ := flatten_ok_of_isJSON FF (joinKey pfx k) v []
        (isJSON_of_mem_allMembersJSON members hms (k, v) hmem)
      refine ⟨k, v, hmem, r', ?_, ?_⟩
      · rw [← joinKey_eq]; exact hr'
      · rw [mem_mapKeys_flatten FF _ _ _ _ hr' key]
        exact Or.inr hkey
  · rintro ⟨k, v, hmem, r', hr', hkey⟩
    rw [← joinKey_eq] at hr'
    rw [mem_mapKeys_flatten FF _ _ _ _ hr' key] at hkey
    rcases hkey with h | h
    · simp [mapKeys] at h
    · exact Or.inr ⟨(k, v), hmem, h⟩

theorem flatten_object_keys_union_witness :
    (JValue.obj [("a", .null), ("b", .obj [("c", .bool true)])]).isJSON = true ∧
    ∃ r, flatten formatIntegral "p"
        (.obj [("a", .null), ("b", .obj [("c", .bool true)])]) [] = .ok r ∧
      ∀ key, key ∈ mapKeys r ↔
        ∃ k v, (k, v) ∈ [("a", JValue.null), ("b", .obj [("c", .bool true)])] ∧
          ∃ r', flatten formatIntegral (if "p" = "" then k else "p" ++ "." ++ k) v [] = .ok r' ∧
            key ∈ mapKeys r' :=
  ⟨by decide, flatten_object_keys_union formatIntegral "p" _ (by decide)⟩

/-! ## `readAndClose`: lemmas -/

theorem isJSON_objIndex (b : List (String × JValue)) (k : String)
    (h : allMembersJSON b = true) : (objIndex b k).isJSON = true := by
  induction b with
  | nil => simp [objIndex, mapLookup, JValue.isJSON]
  | cons e b ih =>
    obtain ⟨k', v⟩ := e
    simp only [allMembersJSON, Bool.and_eq_true] at h
    by_cases hk : k' = k
    · simp [objIndex, mapLookup, hk, h.1]
    · have := ih h.2
      simpa [objIndex, mapLookup, hk] using this

theorem isJSON_getD (b : List JValue) (n : Nat) (h : allJSON b = true) :
    (b.getD n JValue.null).isJSON = true := by
  induction b generalizing n with
  | nil => simp [JValue.isJSON]
  | cons v b ih =>
    simp only [allJSON, Bool.and_eq_true] at h
    cases n with
    | zero => simpa using h.1
    | succ n => simpa using ih n h.2

theorem isJSON_skipLoop : ∀ (skip : List String) (base : JValue) (pfx : String)
    (v : JValue) (P : String), base.isJSON = true →
    skipLoop skip base pfx = .ok (v, P) → v.isJSON = true
  | [], base, pfx, v, P, hb, h => by
    simp only [skipLoop, Result.ok.injEq, Prod.mk.injEq] at h
    rw [← h.1]; exact hb
  | skipID :: skip, .obj b, pfx, v, P, hb, h => by
    rw [skipLoop] at h
    exact isJSON_skipLoop skip _ _ v P
      (isJSON_objIndex b skipID (by simpa [JValue.isJSON] using hb)) h
  | skipID :: skip, .arr b, pfx, v, P, hb, h => by
    rw [skipLoop] at h
    cases ha : Atoi skipID with
    | error e => simp [ha] at h
    | ok i =>
      rw [ha] at h
      by_cases hi : 0 ≤ i ∧ i < (b.length : Int)
      · simp only [hi, and_self, if_true] at h
        exact isJSON_skipLoop skip _ _ v P
          (isJSON_getD b _ (by simpa [JValue.isJSON] using hb)) h
      · simp only [hi, if_false] at h
        split at h <;> cases h
  | skipID :: skip, .bool _, pfx, v, P, hb, h => by simp [skipLoop] at h
  | skipID :: skip, .num _, pfx, v, P, hb, h => by simp [skipLoop] at h
  | skipID :: skip, .str _, pfx, v, P, hb, h => by simp [skipLoop] at h
  | skipID :: skip, .null, pfx, v, P, hb, h => by simp [skipLoop] at h
  | skipID :: skip, .other _ _, pfx, v, P, hb, h => by simp [skipLoop] at h

theorem flattenAll_ok (FF : float64 → String) (P : String) :
    ∀ (A : List JValue), allJSON A = true →
      ∃ records, flattenAll FF P A = .ok records ∧ records.length = A.length ∧
        ∀ (i : Nat) (a : JValue), A[i]? = some a →
          ∃ r, records[i]? = some r ∧ flatten FF P a [] = .ok r
  | [], _ => ⟨[], rfl, rfl, by simp⟩
  | b :: rest, h => by
    simp only [allJSON, Bool.and_eq_true] at h
    obtain ⟨r, hr⟩ := flatten_ok_of_isJSON FF P b [] h.1
    obtain ⟨records, hrec, hlen, hidx⟩ := flattenAll_ok FF P rest h.2
    refine ⟨r :: records, by simp [flattenAll, hr, hrec], by simp [hlen], ?_⟩
    intro i a hi
    cases i with
    | zero =>
      simp only [List.getElem?_cons_zero, Option.some.injEq] at hi
      subst hi
      exact ⟨r, by simp, hr⟩
    | succ i =>
      simp only [List.getElem?_cons_succ] at hi ⊢
      exact hidx i a hi

theorem mem_mapKeys_flattenAll (FF : float64 → String) (P : String) (key : String) :
    ∀ (A : List JValue) (records : List record), flattenAll FF P A = .ok records →
      ((∃ r ∈ records, key ∈ mapKeys r) ↔ ∃ a ∈ A, key ∈ leafPaths P a)
  | [], records, h => by
    simp only [flattenAll, Except.ok.injEq] at h
    subst h
    simp
  | b :: rest, records, h => by
    rw [flattenAll] at h
    cases hb : flatten FF P b [] with
    | error e => simp [hb] at h
    | ok r =>
      rw [hb] at h
      cases hrest : flattenAll FF P rest with
      | error e => simp [hrest] at h
      | ok rs =>
        rw [hrest] at h
        simp only [Except.ok.injEq] at h
        subst h
        have h1 := mem_mapKeys_flatten FF P b [] r hb key
        have h2 := mem_mapKeys_flattenAll FF P key rest rs hrest
        simp only [List.mem_cons, exists_eq_or_imp]
        rw [h1, h2]
        simp [mapKeys]

theorem readAndClose_of_skipLoop (FF : float64 → String) (doc : JValue)
    (skip : List String) (A : List JValue) (P : String)
    (hnav : skipLoop skip doc "" = .ok (.arr A, P)) :
    readAndClose FF (.ok doc) skip =
      match flattenAll FF P A with
      | .error err => .error err
      | .ok records => .ok records := by
  simp only [readAndClose, hnav]

/-! ## `readAndClose`: claims -/

/-- C7: for every parsed document and every list of skip steps whose
navigation ends, without error, at an array `A` with the accumulated prefix
`P`, `readAndClose` returns nil and `len(A)` records, and record `i` is the
map that `flatten(P, A[i], ·)` leaves from an empty target, in array order.
With no steps the navigation ends at the document itself with `P = ""`. -/
theorem readAndClose_records (FF : float64 → String) (doc : JValue) (skip : List String)
    (A : List JValue) (P : String) (hdoc : doc.isJSON = true)
    (hnav : skipLoop skip doc "" = .ok (.arr A, P)) :
    (∃ records, readAndClose FF (.ok doc) skip = .ok records ∧
      records.length = A.length ∧
      ∀ (i : Nat) (a : JValue), A[i]? = some a →
        ∃ r, records[i]? = some r ∧ flatten FF P a [] = .ok r) ∧
    skipLoop [] doc "" = .ok (doc, "") := by
  refine ⟨?_, rfl⟩
  have hA : allJSON A = true := by
    simpa [JValue.isJSON] using isJSON_skipLoop skip doc "" (.arr A) P hdoc hnav
  obtain ⟨records, hrec, hlen, hidx⟩ := flattenAll_ok FF P A hA
  refine ⟨records, ?_, hlen, hidx⟩
  rw [readAndClose_of_skipLoop FF doc skip A P hnav, hrec]

theorem readAndClose_records_witness :
    (JValue.obj [("d", .arr [.arr [.obj [("x", .str "y")], .bool true]])]).isJSON = true ∧
    skipLoop ["d", "0"] (.obj [("d", .arr [.arr [.obj [("x", .str "y")], .bool true]])]) "" =
      .ok (.arr [.obj [("x", .str "y")], .bool true], "d.0") ∧
    ((∃ records,
      readAndClose formatIntegral
        (.ok (.obj [("d", .arr [.arr [.obj [("x", .str "y")], .bool true]])])) ["d", "0"] =
          .ok records ∧
      records.length = [JValue.obj [("x", .str "y")], .bool true].length ∧
      ∀ (i : Nat) (a : JValue), [JValue.obj [("x", .str "y")], .bool true][i]? = some a →
        ∃ r, records[i]? = some r ∧ flatten formatIntegral "d.0" a [] = .ok r) ∧
    skipLoop [] (.obj [("d", .arr [.arr [.obj [("x", .str "y")], .bool true]])]) "" =
      .ok (.obj [("d", .arr [.arr [.obj [("x", .str "y")], .bool true]])], "")) :=
  ⟨by decide, rfl,
    readAndClose_records formatIntegral _ ["d", "0"] _ "d.0" (by decide) rfl⟩

/-- An instance of C7 evaluated: the steps `d`, `0` lead to the inner array,
whose two elements are flattened below the prefix `d.0`. -/
theorem readAndClose_records_example :
    readAndClose formatIntegral
      (.ok (.obj [("d", .arr [.arr [.obj [("x", .str "y")], .bool true]])])) ["d", "0"] =
        .ok [[("d.0.x", "y")], [("d.0", "true")]] := by
  decide

/-! ## End to end -/

theorem memberPaths_of_scalar (pfx : String) : ∀ (o : List (String × JValue)),
    (∀ kv ∈ o, kv.2.isScalar = true) → memberPaths pfx o = o.map (fun kv => joinKey pfx kv.1)
  | [], _ => rfl
  | (k, v) :: rest, h => by
    have hv : v.isScalar = true := h (k, v) (List.mem_cons_self _ _)
    have hrest := memberPaths_of_scalar pfx rest
      (fun kv hkv => h kv (List.mem_cons_of_mem _ hkv))
    rw [memberPaths, hrest]
    cases v <;> simp [JValue.isScalar] at hv <;> simp [leafPaths]

theorem allMembersJSON_of_scalar : ∀ (o : List (String × JValue)),
    (∀ kv ∈ o, kv.2.isScalar = true) → allMembersJSON o = true
  | [], _ => rfl
  | (k, v) :: rest, h => by
    have hv : v.isScalar = true := h (k, v) (List.mem_cons_self _ _)
    have hrest := allMembersJSON_of_scalar rest
      (fun kv hkv => h kv (List.mem_cons_of_mem _ hkv))
    rw [allMembersJSON, hrest]
    cases v <;> simp [JValue.isScalar] at hv <;> simp [JValue.isJSON]

theorem allJSON_map_obj : ∀ (elems : List (List (String × JValue))),
    (∀ o ∈ elems, ∀ kv ∈ o, kv.2.isScalar = true) → allJSON (elems.map JValue.obj) = true
  | [], _ => rfl
  | o :: rest, h => by
    have ho := allMembersJSON_of_scalar o (h o (List.mem_cons_self _ _))
    have hrest := allJSON_map_obj rest (fun o' ho' => h o' (List.mem_cons_of_mem _ ho'))
    simp [allJSON, JValue.isJSON, ho, hrest]

/-- C3: for every document that is an array of objects having only scalar
fields, read with no skip steps and written with a separator the writer
accepts, `readAndClose` and `tabular` return nil, the header is strictly
ascending and holds exactly the keys of the objects of the array, and there
are as many data rows as array elements. -/
theorem array_of_flat_objects_table (FF : float64 → String)
    (elems : List (List (String × JValue))) (comma : Char)
    (hfields : elems.all (fun o => o.all (fun kv => kv.2.isScalar)) = true)
    (hc : validDelim comma = true) :
    ∃ (records : List record) (header : List String) (rows : List (List String)),
      readAndClose FF (.ok (.arr (elems.map JValue.obj))) [] = .ok records ∧
      tabular records comma = .ok (header :: rows) ∧
      header.Pairwise (· < ·) ∧
      (∀ key, key ∈ header ↔ ∃ o ∈ elems, key ∈ mapKeys o) ∧
      rows.length = elems.length := by
  have hscalar : ∀ o ∈ elems, ∀ kv ∈ o, kv.2.isScalar = true := by
    simpa [List.all_eq_true] using hfields
  have hA := allJSON_map_obj elems hscalar
  obtain ⟨records, hrec, hlen, -⟩ := flattenAll_ok FF "" (elems.map JValue.obj) hA
  have hread : readAndClose FF (.ok (.arr (elems.map JValue.obj))) [] = .ok records := by
    rw [readAndClose_of_skipLoop FF _ [] (elems.map JValue.obj) "" rfl, hrec]
  refine ⟨records, columns records, _, hread, tabular_ok records comma hc,
    columns_strict records, ?_, by simpa using hlen⟩
  intro key
  rw [mem_columns, mem_mapKeys_flattenAll FF "" key _ records hrec]
  constructor
  · rintro ⟨a, ha, hkey⟩
    obtain ⟨o, ho, rfl⟩ := List.mem_map.mp ha
    refine ⟨o, ho, ?_⟩
    rw [leafPaths, memberPaths_of_scalar "" o (hscalar o ho)] at hkey
    simpa [mapKeys, joinKey] using hkey
  · rintro ⟨o, ho, hkey⟩
    refine ⟨.obj o, List.mem_map.mpr ⟨o, ho, rfl⟩, ?_⟩
    rw [leafPaths, memberPaths_of_scalar "" o (hscalar o ho)]
    simpa [mapKeys, joinKey] using hkey

theorem array_of_flat_objects_table_witness :
    [[("b", JValue.str "s"), ("a", .num ⟨0x3FF0000000000000⟩)], [("c", .null)]].all
      (fun o => o.all (fun kv => kv.2.isScalar)) = true ∧
    validDelim ',' = true ∧
    ∃ (records : List record) (header : List String) (rows : List (List String)),
      readAndClose formatIntegral (.ok (.arr
        ([[("b", JValue.str "s"), ("a", .num ⟨0x3FF0000000000000⟩)], [("c", .null)]].map
          JValue.obj))) [] = .ok records ∧
      tabular records ',' = .ok (header :: rows) ∧
      header.Pairwise (· < ·) ∧
      (∀ key, key ∈ header ↔
        ∃ o ∈ [[("b", JValue.str "s"), ("a", .num ⟨0x3FF0000000000000⟩)], [("c", .null)]],
          key ∈ mapKeys o) ∧
      rows.length =
        [[("b", JValue.str "s"), ("a", .num ⟨0x3FF0000000000000⟩)], [("c", .null)]].length :=
  ⟨by decide, by decide,
    array_of_flat_objects_table formatIntegral _ ',' (by decide) (by decide)⟩

/-- The scenario of the specification: `[{"a":1,"b":{"c":true}}, {"a":2}]`
with no skip steps and the separator `,` gives the header `a, b.c` and the
rows `1, true` and `2, ""`. -/
theorem nested_scenario :
    readAndClose formatIntegral
      (.ok (.arr [.obj [("a", .num ⟨0x3FF0000000000000⟩), ("b", .obj [("c", .bool true)])],
        .obj [("a", .num ⟨0x4000000000000000⟩)]])) [] =
      .ok [[("a", "1"), ("b.c", "true")], [("a", "2")]] ∧
    tabular [[("a", "1"), ("b.c", "true")], [("a", "2")]] ',' =
      .ok [["a", "b.c"], ["1", "true"], ["2", ""]] := by
  decide

/-- C8, as the specification states it, fails: for the document
`{"_data":[{"x":"y"}]}` and the steps `["_data"]` the record returned is not
`{x: "y"}`, whatever formats the numbers. -/
theorem skip_example_record_not_bare :
    ¬ ∃ FF : float64 → String,
      readAndClose FF (.ok (.obj [("_data", .arr [.obj [("x", .str "y")]])])) ["_data"] =
        .ok [[("x", "y")]] := by
  rintro ⟨FF, h⟩
  have h' : readAndClose FF (.ok (.obj [("_data", .arr [.obj [("x", .str "y")]])])) ["_data"] =
      .ok [[("_data.x", "y")]] := rfl
  rw [h'] at h
  revert h
  decide

/-- C8 as amended: for the document `{"_data":[{"x":"y"}]}` and the steps
`["_data"]`, `readAndClose` returns exactly one record, `{_data.x: "y"}`,
the key carrying the navigated prefix, and `tabular` then writes the header
`[_data.x]` and the single row `[y]`. -/
theorem skip_example_prefixed (FF : float64 → String) :
    readAndClose FF (.ok (.obj [("_data", .arr [.obj [("x", .str "y")]])])) ["_data"] =
      .ok [[("_data.x", "y")]] ∧
    tabular [[("_data.x", "y")]] ',' = .ok [["_data.x"], ["y"]] :=
  ⟨rfl, by decide⟩

/-! ## Navigation: the accumulated prefix -/

theorem skipLoop_prefix : ∀ (skip : List String) (base : JValue) (pfx : String)
    (v : JValue) (P : String),
    skipLoop skip base pfx = .ok (v, P) → P = skip.foldl joinKey pfx
  | [], base, pfx, v, P, h => by
    simp only [skipLoop, Result.ok.injEq, Prod.mk.injEq] at h
    simpa using h.2.symm
  | skipID :: skip, .obj b, pfx, v, P, h => by
    rw [skipLoop] at h
    exact skipLoop_prefix skip _ _ v P h
  | skipID :: skip, .arr b, pfx, v, P, h => by
    rw [skipLoop] at h
    cases ha : Atoi skipID with
    | error e => simp [ha] at h
    | ok i =>
      rw [ha] at h
      by_cases hi : 0 ≤ i ∧ i < (b.length : Int)
      · simp only [hi, and_self, if_true] at h
        exact skipLoop_prefix skip _ _ v P h
      · simp only [hi, if_false] at h
        split at h <;> cases h
  | skipID :: skip, .bool _, pfx, v, P, h => by simp [skipLoop] at h
  | skipID :: skip, .num _, pfx, v, P, h => by simp [skipLoop] at h
  | skipID :: skip, .str _, pfx, v, P, h => by simp [skipLoop] at h
  | skipID :: skip, .null, pfx, v, P, h => by simp [skipLoop] at h
  | skipID :: skip, .other _ _, pfx, v, P, h => by simp [skipLoop] at h

theorem append_dot_ne_empty (p k : String) : p ++ "." ++ k ≠ "" := by
  intro h
  have hl := congrArg String.length h
  simp only [String.length_append] at hl
  have h1 : ".".length = 1 := rfl
  have h0 : "".length = 0 := rfl
  omega

theorem foldl_joinKey_of_ne_empty : ∀ (skip : List String) (p : String), p ≠ "" →
    skip.foldl joinKey p = String.intercalate.go p "." skip
  | [], p, _ => rfl
  | s :: skip, p, hp => by
    rw [List.foldl_cons, String.intercalate.go, joinKey_eq, if_neg hp]
    exact foldl_joinKey_of_ne_empty skip _ (append_dot_ne_empty p s)

theorem foldl_joinKey_empty : ∀ (skip : List String),
    skip.foldl joinKey "" = String.intercalate "." (skip.dropWhile (fun s => s == ""))
  | [] => rfl
  | s :: skip => by
    by_cases hs : s = ""
    · subst hs
      have hj : joinKey "" "" = "" := rfl
      rw [List.foldl_cons, hj, foldl_joinKey_empty skip]
      simp [List.dropWhile]
    · have hj : joinKey "" s = s := by simp [joinKey]
      have hb : (s == "") = false := by simpa using hs
      rw [List.foldl_cons, hj, foldl_joinKey_of_ne_empty skip s hs]
      simp [List.dropWhile, hb, String.intercalate]

/-- C9, as the specification states it, fails: for the document
`{"": {"a": [true]}}` and the steps `""`, `a` the navigation succeeds with the
prefix `a`, which is not the steps joined with `.` (that is `.a`); the
record returned has the key `a`. -/
theorem prefix_not_join_with_empty_step :
    (∃ v P, skipLoop ["", "a"] (.obj [("", .obj [("a", .arr [.bool true])])]) "" = .ok (v, P) ∧
      P ≠ String.intercalate "." ["", "a"]) ∧
    readAndClose formatIntegral (.ok (.obj [("", .obj [("a", .arr [.bool true])])])) ["", "a"] =
      .ok [[("a", "true")]] :=
  ⟨⟨_, _, rfl, by decide⟩, by decide⟩

/-- C9 as amended: for every document and every list of skip steps on which
the navigation succeeds, the accumulated prefix is the steps joined with `.`
once the empty steps at the head of the list are dropped; so it is the join
of all the steps when there are none or the first one is not empty. -/
theorem prefix_eq_join_after_empty_steps (doc : JValue) (skip : List String)
    (v : JValue) (P : String) (hnav : skipLoop skip doc "" = .ok (v, P)) :
    P = String.intercalate "." (skip.dropWhile (fun s => s == "")) ∧
    (skip.head? ≠ some "" → P = String.intercalate "." skip) := by
  have hP := skipLoop_prefix skip doc "" v P hnav
  rw [foldl_joinKey_empty] at hP
  refine ⟨hP, fun hhead => ?_⟩
  rw [hP]
  cases skip with
  | nil => rfl
  | cons s rest =>
    have hs : s ≠ "" := by simpa using hhead
    have hb : (s == "") = false := by simpa using hs
    simp [List.dropWhile, hb]

theorem prefix_eq_join_after_empty_steps_witness :
    skipLoop ["", "d", "", "0"]
      (.obj [("", .obj [("d", .obj [("", .arr [.arr [.null]])])])]) "" =
        .ok (.arr [.null], "d..0") ∧
    "d..0" = String.intercalate "." (["", "d", "", "0"].dropWhile (fun s => s == "")) ∧
    (["", "d", "", "0"].head? ≠ some "" →
      "d..0" = String.intercalate "." ["", "d", "", "0"]) :=
  ⟨rfl, prefix_eq_join_after_empty_steps
    (.obj [("", .obj [("d", .obj [("", .arr [.arr [.null]])])])]) ["", "d", "", "0"]
    (.arr [.null]) "d..0" rfl⟩

/-! ## Navigation: a step on an array -/

/-- When the current value is an array and the step parses as an index
within the bounds, the loop goes on at that element. -/
theorem skipLoop_arr_in_range (b : List JValue) (s : String) (skip : List String)
    (pfx : String) (i : Nat) (hs : Atoi s = .ok (i : Int)) (hi : i < b.length) :
    skipLoop (s :: skip) (.arr b) pfx = skipLoop skip (b.getD i JValue.null) (joinKey pfx s) := by
  have h : (0 : Int) ≤ (i : Int) ∧ (i : Int) < (b.length : Int) :=
    ⟨Int.ofNat_nonneg i, Int.ofNat_lt.mpr hi⟩
  simp [skipLoop, hs, h]

/-- When the current value is an array and the step does not parse as an
integer, `readAndClose` returns the error of `Atoi`. -/
theorem skipLoop_arr_not_integer (b : List JValue) (s : String) (skip : List String)
    (pfx : String) (e : GoError) (hs : Atoi s = .error e) :
    skipLoop (s :: skip) (.arr b) pfx = .error e := by
  simp [skipLoop, hs]

/-- When the current value is an array and the step parses as an integer
outside the bounds, the index expression panics: nothing is returned. -/
theorem skipLoop_arr_out_of_range (b : List JValue) (s : String) (skip : List String)
    (pfx : String) (i : Int) (hs : Atoi s = .ok i) (hi : i < 0 ∨ (b.length : Int) ≤ i) :
    ∃ msg, skipLoop (s :: skip) (.arr b) pfx = .panic msg := by
  have h : ¬ (0 ≤ i ∧ i < (b.length : Int)) := by omega
  by_cases hneg : i < 0
  · exact ⟨"runtime error: index out of range [" ++ Itoa i ++ "]",
      by simp only [skipLoop, hs, h, hneg, if_false, if_true]⟩
  · exact ⟨"runtime error: index out of range [" ++ Itoa i ++ "] with length " ++
      Itoa (b.length : Int), by simp only [skipLoop, hs, h, hneg, if_false]⟩

/-- C10 at the failing inputs: on the document `[null, null]` the step `5`
and the step `-1` parse as integers outside the bounds; `readAndClose` does
not return an error but panics in the index expression, with the text of
the Go runtime, whereas the step `x` returns the error of `Atoi` and the
step `1` descends. -/
theorem index_out_of_range_panics :
    readAndClose formatIntegral (.ok (.arr [.null, .null])) ["5"] =
      .panic "runtime error: index out of range [5] with length 2" ∧
    readAndClose formatIntegral (.ok (.arr [.null, .null])) ["-1"] =
      .panic "runtime error: index out of range [-1]" ∧
    readAndClose formatIntegral (.ok (.arr [.null, .null])) ["x"] =
      .error (.numSyntax "Atoi" "x") ∧
    skipLoop ["1"] (.arr [.null, .arr []]) "" = .ok (.arr [], "1") :=
  ⟨by decide, by decide, by decide, rfl⟩

/-! ## Navigation: errors -/

theorem skipLoop_append : ∀ (pre post : List String) (base : JValue) (pfx : String),
    skipLoop (pre ++ post) base pfx =
      match skipLoop pre base pfx with
      | .ok (v, P) => skipLoop post v P
      | .error err => .error err
      | .panic msg => .panic msg
  | [], post, base, pfx => by simp [skipLoop]
  | s :: pre, post, .obj b, pfx => by
    simp only [List.cons_append, skipLoop]
    exact skipLoop_append pre post _ _
  | s :: pre, post, .arr b, pfx => by
    simp only [List.cons_append, skipLoop]
    cases Atoi s with
    | error e => rfl
    | ok i =>
      by_cases hi : 0 ≤ i ∧ i < (b.length : Int)
      · simp only [hi, and_self, if_true]
        exact skipLoop_append pre post _ _
      · simp only [hi, if_false]
        split <;> rfl
  | s :: pre, post, .bool _, pfx => by simp [skipLoop]
  | s :: pre, post, .num _, pfx => by simp [skipLoop]
  | s :: pre, post, .str _, pfx => by simp [skipLoop]
  | s :: pre, post, .null, pfx => by simp [skipLoop]
  | s :: pre, post, .other _ _, pfx => by simp [skipLoop]

theorem skipLoop_scalar (v : JValue) (s : String) (post : List String) (P : String)
    (hv : v.isScalar = true) :
    skipLoop (s :: post) v P =
      .error (.errorf ("type of base " ++ typeName v ++ " isn't skippable by " ++ s)) := by
  cases v <;> simp [JValue.isScalar] at hv <;> simp [skipLoop]

theorem readAndClose_not_array (FF : float64 → String) (doc : JValue) (skip : List String)
    (v : JValue) (P : String) (hnav : skipLoop skip doc "" = .ok (v, P))
    (hv : ∀ A, v ≠ .arr A) :
    readAndClose FF (.ok doc) skip =
      .error (.errorf "type of baseArray []interface \x7b\x7d isn't []any") := by
  simp only [readAndClose, hnav]
  cases v with
  | arr A => exact absurd rfl (hv A)
  | _ => rfl

theorem readAndClose_error_of_skipLoop (FF : float64 → String) (doc : JValue)
    (skip : List String) (e : GoError) (hnav : skipLoop skip doc "" = .error e) :
    readAndClose FF (.ok doc) skip = .error e := by
  simp only [readAndClose, hnav]

/-- C11: for every document and step list in which, after the steps `pre`
have been applied, the current value is a boolean, number, string or null
and a step `s` remains, `readAndClose` returns no records but the error
`type of base T isn't skippable by s`, where `T` is the type of that value
(`bool`, `float64`, `string`, or `<nil>` for null) and `s` the step. -/
theorem scalar_not_skippable (FF : float64 → String) (doc : JValue)
    (pre : List String) (s : String) (post : List String) (v : JValue) (P : String)
    (hnav : skipLoop pre doc "" = .ok (v, P)) (hv : v.isScalar = true) :
    readAndClose FF (.ok doc) (pre ++ s :: post) =
      .error (.errorf ("type of base " ++ typeName v ++ " isn't skippable by " ++ s)) ∧
    (∀ b, typeName (.bool b) = "bool") ∧ (∀ x, typeName (.num x) = "float64") ∧
    (∀ t, typeName (.str t) = "string") ∧ typeName .null = "<nil>" := by
  refine ⟨?_, fun _ => rfl, fun _ => rfl, fun _ => rfl, rfl⟩
  apply readAndClose_error_of_skipLoop
  rw [skipLoop_append, hnav]
  exact skipLoop_scalar v s post P hv

theorem scalar_not_skippable_witness :
    skipLoop ["a"] (.obj [("a", .str "t")]) "" = .ok (.str "t", "a") ∧
    (JValue.str "t").isScalar = true ∧
    (readAndClose formatIntegral (.ok (.obj [("a", .str "t")])) (["a"] ++ "b" :: ["c"]) =
      .error (.errorf ("type of base " ++ typeName (.str "t") ++ " isn't skippable by " ++ "b")) ∧
    (∀ b, typeName (.bool b) = "bool") ∧ (∀ x, typeName (.num x) = "float64") ∧
    (∀ t, typeName (.str t) = "string") ∧ typeName .null = "<nil>") :=
  ⟨rfl, rfl, scalar_not_skippable formatIntegral (.obj [("a", .str "t")]) ["a"] "b" ["c"]
    (.str "t") "a" rfl rfl⟩

/-- An instance of C11 evaluated: the step `b` cannot be applied to the
string reached by the step `a`. -/
theorem scalar_not_skippable_example :
    readAndClose formatIntegral (.ok (.obj [("a", .str "t")])) ["a", "b", "c"] =
      .error (.errorf "type of base string isn't skippable by b") := by
  decide

/-- C12: for every document and step list on which all the steps apply,
`readAndClose` returns records only if the value reached is an array; when
it is anything else (an object, boolean, number, string or null) it returns
an error and no records. With no steps the document itself must be an
array. -/
theorem readAndClose_requires_array (FF : float64 → String) (doc : JValue)
    (skip : List String) (v : JValue) (P : String)
    (hnav : skipLoop skip doc "" = .ok (v, P)) :
    ((∀ A, v ≠ .arr A) → ∃ e, readAndClose FF (.ok doc) skip = .error e) ∧
    (∀ records, readAndClose FF (.ok doc) skip = .ok records → ∃ A, v = .arr A) ∧
    (∀ d records, readAndClose FF (.ok d) [] = .ok records → ∃ A, d = .arr A) := by
  have key : ∀ (d : JValue) (sk : List String) (w : JValue) (Q : String),
      skipLoop sk d "" = .ok (w, Q) → ∀ records,
      readAndClose FF (.ok d) sk = .ok records → ∃ A, w = .arr A := by
    intro d sk w Q hd records hr
    by_cases hw : ∃ A, w = .arr A
    · exact hw
    · have hne : ∀ A, w ≠ .arr A := fun A hA => hw ⟨A, hA⟩
      rw [readAndClose_not_array FF d sk w Q hd hne] at hr
      cases hr
  refine ⟨fun hv => ⟨_, readAndClose_not_array FF doc skip v P hnav hv⟩,
    key doc skip v P hnav, fun d records hr => key d [] d "" rfl records hr⟩

theorem readAndClose_requires_array_witness :
    skipLoop ["a"] (.obj [("a", .obj [])]) "" = .ok (.obj [], "a") ∧
    (((∀ A, JValue.obj [] ≠ .arr A) →
      ∃ e, readAndClose formatIntegral (.ok (.obj [("a", .obj [])])) ["a"] = .error e) ∧
    (∀ records, readAndClose formatIntegral (.ok (.obj [("a", .obj [])])) ["a"] = .ok records →
      ∃ A, JValue.obj [] = .arr A) ∧
    (∀ d records, readAndClose formatIntegral (.ok d) [] = .ok records → ∃ A, d = .arr A)) :=
  ⟨rfl, readAndClose_requires_array formatIntegral (.obj [("a", .obj [])]) ["a"] (.obj [])
    "a" rfl⟩

/-- C13 at the failing inputs: the documents `{}`, `"s"`, `true` and `null`,
read with no steps, reach values of four different types, and
`readAndClose` returns the same error for all of them; its text names the
type `[]interface {}` of the variable `baseArray`, not the type of the value
reached. -/
theorem not_array_error_hides_type :
    readAndClose formatIntegral (.ok (.obj [])) [] =
      .error (.errorf "type of baseArray []interface \x7b\x7d isn't []any") ∧
    readAndClose formatIntegral (.ok (.str "s")) [] =
      .error (.errorf "type of baseArray []interface \x7b\x7d isn't []any") ∧
    readAndClose formatIntegral (.ok (.bool true)) [] =
      .error (.errorf "type of baseArray []interface \x7b\x7d isn't []any") ∧
    readAndClose formatIntegral (.ok .null) [] =
      .error (.errorf "type of baseArray []interface \x7b\x7d isn't []any") ∧
    typeName (.obj []) ≠ typeName (.str "s") := by
  decide

/-! ## Navigation through an absent key -/

theorem objIndex_absent (b : List (String × JValue)) (k : String) (hk : k ∉ mapKeys b) :
    objIndex b k = .null := by
  simp [objIndex, (mapLookup_eq_none_iff b k).mpr hk]

theorem skipLoop_null_never_array : ∀ (post : List String) (P : String),
    (∃ Q, skipLoop post .null P = .ok (.null, Q)) ∨ ∃ e, skipLoop post .null P = .error e
  | [], P => Or.inl ⟨P, rfl⟩
  | s :: _, P => Or.inr ⟨_, skipLoop_scalar .null s _ P rfl⟩

/-- C17: for every object that has no member named `k`, the step `k` alone
does not fail at the lookup: it yields null, which is not an array, so
`readAndClose` returns the not-an-array error; the steps `k, s, ...` return
the not-skippable error for the type `<nil>` and the step `s`. Hence no
step list that passes through an absent key yields records. -/
theorem absent_key_never_yields_records (FF : float64 → String)
    (b : List (String × JValue)) (k : String) (hk : k ∉ mapKeys b) :
    skipLoop [k] (.obj b) "" = .ok (.null, k) ∧
    readAndClose FF (.ok (.obj b)) [k] =
      .error (.errorf "type of baseArray []interface \x7b\x7d isn't []any") ∧
    (∀ s rest, readAndClose FF (.ok (.obj b)) (k :: s :: rest) =
      .error (.errorf ("type of base <nil> isn't skippable by " ++ s))) ∧
    (∀ doc pre post P, skipLoop pre doc "" = .ok (.obj b, P) →
      ∃ e, readAndClose FF (.ok doc) (pre ++ k :: post) = .error e) := by
  have h1 : skipLoop [k] (.obj b) "" = .ok (.null, k) := by
    simp [skipLoop, objIndex_absent b k hk, joinKey]
  refine ⟨h1, readAndClose_not_array FF _ _ _ _ h1 (fun A hA => by cases hA), ?_, ?_⟩
  · intro s rest
    apply readAndClose_error_of_skipLoop
    simp [skipLoop, objIndex_absent b k hk, typeName]
  · intro doc pre post P hpre
    have hstep : skipLoop (pre ++ k :: post) doc "" = skipLoop post .null (joinKey P k) := by
      rw [skipLoop_append, hpre]
      simp [skipLoop, objIndex_absent b k hk]
    rcases skipLoop_null_never_array post (joinKey P k) with ⟨Q, hQ⟩ | ⟨e, he⟩
    · exact ⟨_, readAndClose_not_array FF doc _ .null Q (hstep.trans hQ)
        (fun A hA => by cases hA)⟩
    · exact ⟨e, readAndClose_error_of_skipLoop FF doc _ e (hstep.trans he)⟩

theorem absent_key_never_yields_records_witness :
    "k" ∉ mapKeys [("a", JValue.arr [])] ∧
    skipLoop ["k"] (.obj [("a", .arr [])]) "" = .ok (.null, "k") ∧
    readAndClose formatIntegral (.ok (.obj [("a", .arr [])])) ["k"] =
      .error (.errorf "type of baseArray []interface \x7b\x7d isn't []any") ∧
    (∀ s rest, readAndClose formatIntegral (.ok (.obj [("a", .arr [])])) ("k" :: s :: rest) =
      .error (.errorf ("type of base <nil> isn't skippable by " ++ s))) ∧
    (∀ doc pre post P, skipLoop pre doc "" = .ok (.obj [("a", .arr [])], P) →
      ∃ e, readAndClose formatIntegral (.ok doc) (pre ++ "k" :: post) = .error e) :=
  ⟨by decide, absent_key_never_yields_records formatIntegral [("a", .arr [])] "k" (by decide)⟩

/-! ## `flatten` returns no error on JSON -/

/-- C18: for every value that `json.Unmarshal` can produce (booleans,
numbers, strings, null, arrays and objects of such values), every prefix and
every target, `flatten` returns nil: the `cannot flatten leaf node` branch is
taken only for a value foreign to JSON. So on a parsed document
`readAndClose` returns records whenever the navigation ends at an array, and
every error it returns is the error of the navigation or the not-an-array
error. -/
theorem flatten_total_on_json (FF : float64 → String) (doc : JValue)
    (hdoc : doc.isJSON = true) :
    (∀ pfx target, ∃ r, flatten FF pfx doc target = .ok r) ∧
    (∀ skip A P, skipLoop skip doc "" = .ok (.arr A, P) →
      ∃ records, readAndClose FF (.ok doc) skip = .ok records) ∧
    (∀ skip e, readAndClose FF (.ok doc) skip = .error e →
      skipLoop skip doc "" = .error e ∨
      e = .errorf "type of baseArray []interface \x7b\x7d isn't []any") ∧
    (∀ pfx target goType goValue, flatten FF pfx (.other goType goValue) target =
      .error (.errorf ("cannot flatten leaf node: " ++ goValue))) := by
  have hrec : ∀ skip A P, skipLoop skip doc "" = .ok (.arr A, P) →
      ∃ records, readAndClose FF (.ok doc) skip = .ok records := by
    intro skip A P hnav
    have hA : allJSON A = true := by
      simpa [JValue.isJSON] using isJSON_skipLoop skip doc "" (.arr A) P hdoc hnav
    obtain ⟨records, hr, -, -⟩ := flattenAll_ok FF P A hA
    exact ⟨records, by rw [readAndClose_of_skipLoop FF doc skip A P hnav, hr]⟩
  refine ⟨fun pfx target => flatten_ok_of_isJSON FF pfx doc target hdoc, hrec, ?_,
    fun _ _ _ _ => rfl⟩
  intro skip e he
  cases hnav : skipLoop skip doc "" with
  | error e' =>
    rw [readAndClose_error_of_skipLoop FF doc skip e' hnav] at he
    cases he
    exact Or.inl rfl
  | panic msg =>
    simp [readAndClose, hnav] at he
  | ok vp =>
    obtain ⟨v, P⟩ := vp
    by_cases hv : ∃ A, v = .arr A
    · obtain ⟨A, rfl⟩ := hv
      obtain ⟨records, hr⟩ := hrec skip A P hnav
      rw [hr] at he
      cases he
    · rw [readAndClose_not_array FF doc skip v P hnav (fun A hA => hv ⟨A, hA⟩)] at he
      cases he
      exact Or.inr rfl

theorem flatten_total_on_json_witness :
    (JValue.arr [.obj [("a", .arr [.null, .num ⟨0⟩])], .str "s"]).isJSON = true ∧
    ((∀ pfx target, ∃ r, flatten formatIntegral pfx
        (.arr [.obj [("a", .arr [.null, .num ⟨0⟩])], .str "s"]) target = .ok r) ∧
    (∀ skip A P,
      skipLoop skip (.arr [.obj [("a", .arr [.null, .num ⟨0⟩])], .str "s"]) "" =
        .ok (.arr A, P) →
      ∃ records, readAndClose formatIntegral
        (.ok (.arr [.obj [("a", .arr [.null, .num ⟨0⟩])], .str "s"])) skip = .ok records) ∧
    (∀ skip e, readAndClose formatIntegral
        (.ok (.arr [.obj [("a", .arr [.null, .num ⟨0⟩])], .str "s"])) skip = .error e →
      skipLoop skip (.arr [.obj [("a", .arr [.null, .num ⟨0⟩])], .str "s"]) "" = .error e ∨
      e = .errorf "type of baseArray []interface \x7b\x7d isn't []any") ∧
    (∀ pfx target goType goValue,
      flatten formatIntegral pfx (.other goType goValue) target =
        .error (.errorf ("cannot flatten leaf node: " ++ goValue)))) :=
  ⟨by decide, flatten_total_on_json formatIntegral _ (by decide)⟩

/-! ## Values without a scalar leave the target as it is -/

mutual
theorem flatten_of_noScalar (FF : float64 → String) (pfx : String) :
    ∀ (v : JValue) (t : record), v.noScalar = true → flatten FF pfx v t = .ok t
  | .bool _, _, h => by simp [JValue.noScalar] at h
  | .num _, _, h => by simp [JValue.noScalar] at h
  | .str _, _, h => by simp [JValue.noScalar] at h
  | .null, _, h => by simp [JValue.noScalar] at h
  | .other _ _, _, h => by simp [JValue.noScalar] at h
  | .arr vs, t, h => by
    rw [flatten]
    exact flattenElems_of_noScalar FF pfx 0 vs t (by simpa [JValue.noScalar] using h)
  | .obj ms, t, h => by
    rw [flatten]
    exact flattenMembers_of_noScalar FF pfx ms t (by simpa [JValue.noScalar] using h)
theorem flattenElems_of_noScalar (FF : float64 → String) (pfx : String) (i : Nat) :
    ∀ (vs : List JValue) (t : record), allNoScalar vs = true →
      flattenElems FF pfx i vs t = .ok t
  | [], _, _ => rfl
  | v :: rest, t, h => by
    simp only [allNoScalar, Bool.and_eq_true] at h
    rw [flattenElems, flatten_of_noScalar FF (indexKey pfx i) v t h.1]
    exact flattenElems_of_noScalar FF pfx (i + 1) rest t h.2
theorem flattenMembers_of_noScalar (FF : float64 → String) (pfx : String) :
    ∀ (ms : List (String × JValue)) (t : record), allMembersNoScalar ms = true →
      flattenMembers FF pfx ms t = .ok t
  | [], _, _ => rfl
  | (k, v) :: rest, t, h => by
    simp only [allMembersNoScalar, Bool.and_eq_true] at h
    rw [flattenMembers, flatten_of_noScalar FF (joinKey pfx k) v t h.1]
    exact flattenMembers_of_noScalar FF pfx rest t h.2
end

theorem flattenAll_index (FF : float64 → String) (P : String) :
    ∀ (A : List JValue) (records : List record), flattenAll FF P A = .ok records →
      ∀ (i : Nat) (a : JValue), A[i]? = some a →
        ∃ r, records[i]? = some r ∧ flatten FF P a [] = .ok r
  | [], _, _, i, a, hi => by simp at hi
  | b :: rest, records, h, i, a, hi => by
    rw [flattenAll] at h
    cases hb : flatten FF P b [] with
    | error e => simp [hb] at h
    | ok r =>
      rw [hb] at h
      cases hrest : flattenAll FF P rest with
      | error e => simp [hrest] at h
      | ok rs =>
        rw [hrest] at h
        simp only [Except.ok.injEq] at h
        subst h
        cases i with
        | zero =>
          simp only [List.getElem?_cons_zero, Option.some.injEq] at hi
          subst hi
          exact ⟨r, by simp, hb⟩
        | succ i =>
          simp only [List.getElem?_cons_succ] at hi ⊢
          exact flattenAll_index FF P rest rs hrest i a hi

theorem readAndClose_ok_flattenAll (FF : float64 → String) (doc : JValue)
    (skip : List String) (A : List JValue) (P : String) (records : List record)
    (hnav : skipLoop skip doc "" = .ok (.arr A, P))
    (hr : readAndClose FF (.ok doc) skip = .ok records) :
    flattenAll FF P A = .ok records := by
  rw [readAndClose_of_skipLoop FF doc skip A P hnav] at hr
  cases hf : flattenAll FF P A with
  | error e => simp [hf] at hr
  | ok rs =>
    rw [hf] at hr
    cases hr
    rfl

/-- C20: for every prefix, every target and every value whose tree holds no
boolean, number, string or null (such as `[]`, `{}` or `{"a":[]}`),
`flatten` returns nil and leaves the target as it was. So when such a value
is element `i` of the array that `readAndClose` flattens, record `i` is
empty: the path of the element is the key of no record and so no column. -/
theorem flatten_no_scalar_unchanged (FF : float64 → String) (v : JValue)
    (hv : v.noScalar = true) :
    (∀ pfx target, flatten FF pfx v target = .ok target) ∧
    (∀ (doc : JValue) (skip : List String) (A : List JValue) (P : String) (i : Nat)
        (records : List record),
      skipLoop skip doc "" = .ok (.arr A, P) → A[i]? = some v →
      readAndClose FF (.ok doc) skip = .ok records → records[i]? = some []) := by
  refine ⟨fun pfx target => flatten_of_noScalar FF pfx v target hv, ?_⟩
  intro doc skip A P i records hnav hi hr
  have hf := readAndClose_ok_flattenAll FF doc skip A P records hnav hr
  obtain ⟨r, hri, hflat⟩ := flattenAll_index FF P A records hf i v hi
  rw [flatten_of_noScalar FF P v [] hv] at hflat
  cases hflat
  exact hri

theorem flatten_no_scalar_unchanged_witness :
    (JValue.obj [("a", .arr []), ("b", .obj [])]).noScalar = true ∧
    ((∀ pfx target,
      flatten formatIntegral pfx (.obj [("a", .arr []), ("b", .obj [])]) target = .ok target) ∧
    (∀ (doc : JValue) (skip : List String) (A : List JValue) (P : String) (i : Nat)
        (records : List record),
      skipLoop skip doc "" = .ok (.arr A, P) →
      A[i]? = some (.obj [("a", .arr []), ("b", .obj [])]) →
      readAndClose formatIntegral (.ok doc) skip = .ok records → records[i]? = some [])) :=
  ⟨by decide, flatten_no_scalar_unchanged formatIntegral _ (by decide)⟩

/-- An instance of C20 evaluated: the elements `[]`, `{}` and `{"a":[]}` give
empty records, and the table has an empty header and three empty rows. -/
theorem no_scalar_example :
    readAndClose formatIntegral (.ok (.arr [.arr [], .obj [], .obj [("a", .arr [])]])) [] =
      .ok [[], [], []] ∧
    tabular [[], [], []] ',' = .ok [[], [], [], []] := by
  decide

/-! ## `process` -/

theorem processLoop_ok (FF : float64 → String) (skip : List String) :
    ∀ (inputs : List (Except GoError (Except GoError JValue)))
      (outs : List (List record)) (records : List record),
      List.Forall₂ (fun input recs =>
        ∃ r, input = .ok r ∧ readAndClose FF r skip = .ok recs) inputs outs →
      processLoop FF skip inputs records = .ok (records ++ outs.flatten)
  | [], outs, records, h => by
    cases h
    simp [processLoop]
  | input :: inputs, outs, records, h => by
    cases h with
    | cons h1 h2 =>
      obtain ⟨r, rfl, hr⟩ := h1
      simp only [processLoop, hr]
      rw [processLoop_ok FF skip inputs _ _ h2]
      simp

theorem processLoop_error (FF : float64 → String) (skip : List String) (e : GoError) :
    ∀ (pre : List (Except GoError (Except GoError JValue)))
      (bad : Except GoError (Except GoError JValue))
      (post : List (Except GoError (Except GoError JValue)))
      (records : List record),
      (∀ input ∈ pre, ∃ r recs, input = .ok r ∧ readAndClose FF r skip = .ok recs) →
      (bad = .error e ∨ ∃ r, bad = .ok r ∧ readAndClose FF r skip = .error e) →
      processLoop FF skip (pre ++ bad :: post) records = .error e
  | [], bad, post, records, _, hbad => by
    rcases hbad with rfl | ⟨r, rfl, hr⟩
    · rfl
    · simp [processLoop, hr]
  | input :: pre, bad, post, records, hpre, hbad => by
    obtain ⟨r, recs, rfl, hr⟩ := hpre input (List.mem_cons_self _ _)
    simp only [List.cons_append, processLoop, hr]
    exact processLoop_error FF skip e pre bad post _
      (fun i hi => hpre i (List.mem_cons_of_mem _ hi)) hbad

theorem processLoop_panic (FF : float64 → String) (skip : List String) (msg : String) :
    ∀ (pre : List (Except GoError (Except GoError JValue)))
      (r : Except GoError JValue)
      (post : List (Except GoError (Except GoError JValue)))
      (records : List record),
      (∀ input ∈ pre, ∃ r recs, input = .ok r ∧ readAndClose FF r skip = .ok recs) →
      readAndClose FF r skip = .panic msg →
      processLoop FF skip (pre ++ .ok r :: post) records = .panic msg
  | [], r, post, records, _, hr => by simp [processLoop, hr]
  | input :: pre, r, post, records, hpre, hr => by
    obtain ⟨r', recs, rfl, hr'⟩ := hpre input (List.mem_cons_self _ _)
    simp only [List.cons_append, processLoop, hr']
    exact processLoop_panic FF skip msg pre r post _
      (fun i hi => hpre i (List.mem_cons_of_mem _ hi)) hr

/-- What `process` does when no call panics: when every input opens and
`readAndClose` returns records for it, `process` returns the records of all
the inputs concatenated in input order. When the inputs before some input
do so and that input does not open, or `readAndClose` returns an error for
it, `process` returns that error and no records, whatever the earlier
inputs gave and the later ones are. -/
theorem process_concat_or_first_error (FF : float64 → String) (skip : List String) :
    (∀ (inputs : List (Except GoError (Except GoError JValue))) (outs : List (List record)),
      List.Forall₂ (fun input recs =>
        ∃ r, input = .ok r ∧ readAndClose FF r skip = .ok recs) inputs outs →
      process FF inputs skip = .ok outs.flatten) ∧
    (∀ (pre : List (Except GoError (Except GoError JValue)))
        (bad : Except GoError (Except GoError JValue))
        (post : List (Except GoError (Except GoError JValue))) (e : GoError),
      (∀ input ∈ pre, ∃ r recs, input = .ok r ∧ readAndClose FF r skip = .ok recs) →
      (bad = .error e ∨ ∃ r, bad = .ok r ∧ readAndClose FF r skip = .error e) →
      process FF (pre ++ bad :: post) skip = .error e) ∧
    (∀ (e : GoError), readAndClose FF (.error e) skip = .error e) := by
  refine ⟨?_, ?_, fun _ => rfl⟩
  · intro inputs outs h
    have := processLoop_ok FF skip inputs outs [] h
    simpa [process] using this
  · intro pre bad post e hpre hbad
    exact processLoop_error FF skip e pre bad post [] hpre hbad

/-- Runs of `process` evaluated: two inputs that succeed; a second input that
does not parse; a second input on which the navigation returns an error. -/
theorem process_examples :
    process formatIntegral
      [.ok (.ok (.arr [.null, .str "s"])), .ok (.ok (.arr [.bool true]))] [] =
      .ok [[("", "null")], [("", "s")], [("", "true")]] ∧
    process formatIntegral
      [.ok (.ok (.arr [.null])), .ok (.error (.external "unexpected end of JSON input")),
        .ok (.ok (.arr []))] [] =
      .error (.external "unexpected end of JSON input") ∧
    process formatIntegral
      [.ok (.ok (.arr [.arr [.null]])), .ok (.ok (.arr [.str "s"]))] ["0"] =
      .error (.errorf "type of baseArray []interface \x7b\x7d isn't []any") := by
  decide

/-- C15 at the failing input: with the step `1`, the first input
`[null, [true]]` gives a record and the navigation of the second input
`[null]` fails on an index out of range; `process` then returns neither
that failure as an error nor anything else: the index expression of
`readAndClose` panics and the panic passes through `process`. -/
theorem process_panics_on_failed_navigation :
    readAndClose formatIntegral (.ok (.arr [.null, .arr [.bool true]])) ["1"] =
      .ok [[("1", "true")]] ∧
    process formatIntegral
      [.ok (.ok (.arr [.null, .arr [.bool true]])), .ok (.ok (.arr [.null]))] ["1"] =
      .panic "runtime error: index out of range [1] with length 1" ∧
    (∀ e, process formatIntegral
      [.ok (.ok (.arr [.null, .arr [.bool true]])), .ok (.ok (.arr [.null]))] ["1"] ≠
      .error e) ∧
    process formatIntegral
      [.ok (.ok (.arr [.null, .arr [.bool true]])), .ok (.ok (.arr [.null, .str "s"]))] ["1"] =
      .error (.errorf "type of baseArray []interface \x7b\x7d isn't []any") := by
  refine ⟨by decide, by decide, ?_, by decide⟩
  intro e h
  have hp : process formatIntegral
      [.ok (.ok (.arr [.null, .arr [.bool true]])), .ok (.ok (.arr [.null]))] ["1"] =
      .panic "runtime error: index out of range [1] with length 1" := by decide
  rw [hp] at h
  cases h

/-! ## The inputs of `main` -/

theorem foldl_append_file (args : List String) (inputs : List Source) :
    args.foldl (fun inputs arg => inputs ++ [Source.file arg]) inputs =
      inputs ++ args.map Source.file := by
  induction args generalizing inputs with
  | nil => simp
  | cons a args ih => simp [ih]

/-- Without arguments the inputs are standard input alone; with two
arguments or more, or one that is not `-`, they are the files of the
arguments, in order. -/
theorem mainInputs_cases (args : List String) :
    mainInputs [] = [.stdin] ∧
    (args ≠ [] → args ≠ ["-"] → mainInputs args = args.map Source.file) := by
  refine ⟨rfl, fun h1 h2 => ?_⟩
  have hc : ¬ (args.length = 0 ∨ (args.length = 1 ∧ args.head? = some "-")) := by
    rintro (h | ⟨hl, hh⟩)
    · exact h1 (List.length_eq_zero.mp h)
    · obtain ⟨a, rfl⟩ := List.length_eq_one.mp hl
      simp only [List.head?_cons, Option.some.injEq] at hh
      exact h2 (by rw [hh])
  simp only [mainInputs, hc, if_false, foldl_append_file, List.nil_append]

/-- C16 at the failing input: when the only argument is `-`, the inputs that
`main` builds are standard input followed by the file named `-`, not
standard input alone. -/
theorem dash_argument_adds_file :
    mainInputs ["-"] = [.stdin, .file "-"] ∧ mainInputs ["-"] ≠ [.stdin] ∧
    mainInputs [] = [.stdin] ∧
    mainInputs ["a.json", "-", "b.json"] = [.file "a.json", .file "-", .file "b.json"] := by
  decide

/-! ## Decimal digits -/

theorem toDigitsCore_eq_append : ∀ (fuel n : Nat) (ds : List Char), n < fuel →
    Nat.toDigitsCore 10 fuel n ds = Nat.toDigits 10 n ++ ds := by
  intro fuel
  induction fuel using Nat.strong_induction_on with
  | _ fuel ih =>
    intro n ds hn
    cases fuel with
    | zero => omega
    | succ fuel =>
      by_cases h0 : n / 10 = 0
      · simp [Nat.toDigits, Nat.toDigitsCore, h0]
      · have hlt : n / 10 < n := Nat.div_lt_self (by omega) (by omega)
        have h1 := ih fuel (by omega) (n / 10) (Nat.digitChar (n % 10) :: ds) (by omega)
        have h2 := ih n (by omega) (n / 10) [Nat.digitChar (n % 10)] hlt
        simp only [Nat.toDigits, Nat.toDigitsCore, h0, if_false] at h1 h2 ⊢
        rw [h1, h2]
        simp

theorem toDigits_step (n : Nat) :
    Nat.toDigits 10 n =
      if n < 10 then [Nat.digitChar n]
      else Nat.toDigits 10 (n / 10) ++ [Nat.digitChar (n % 10)] := by
  by_cases h : n < 10
  · have h0 : n / 10 = 0 := Nat.div_eq_of_lt h
    have hm : n % 10 = n := Nat.mod_eq_of_lt h
    simp [Nat.toDigits, Nat.toDigitsCore, h0, hm, h]
  · have h0 : ¬ n / 10 = 0 := by omega
    have hlt : n / 10 < n := Nat.div_lt_self (by omega) (by omega)
    have h2 := toDigitsCore_eq_append n (n / 10) [Nat.digitChar (n % 10)] hlt
    simp only [if_neg h]
    rw [← h2]
    simp [Nat.toDigits, Nat.toDigitsCore, h0]

theorem digitChar_ne_bracket (m : Nat) (h : m < 10) : Nat.digitChar m ≠ ']' := by
  interval_cases m <;> decide

theorem digitsValue_digitChar (m : Nat) (h : m < 10) :
    (Nat.digitChar m).toNat - '0'.toNat = m := by
  interval_cases m <;> decide

theorem toDigits_ne_bracket : ∀ (n : Nat), ∀ c ∈ Nat.toDigits 10 n, c ≠ ']' := by
  intro n
  induction n using Nat.strong_induction_on with
  | _ n ih =>
    intro c hc
    rw [toDigits_step] at hc
    by_cases h : n < 10
    · simp only [if_pos h, List.mem_singleton] at hc
      subst hc
      exact digitChar_ne_bracket n h
    · simp only [if_neg h, List.mem_append, List.mem_singleton] at hc
      rcases hc with hc | hc
      · exact ih (n / 10) (Nat.div_lt_self (by omega) (by omega)) c hc
      · subst hc
        exact digitChar_ne_bracket _ (Nat.mod_lt _ (by omega))

theorem digitsValue_toDigits : ∀ (n : Nat), digitsValue (Nat.toDigits 10 n) = n := by
  intro n
  induction n using Nat.strong_induction_on with
  | _ n ih =>
    rw [toDigits_step]
    by_cases h : n < 10
    · have hv := digitsValue_digitChar n h
      simp only [if_pos h, digitsValue, List.foldl_cons, List.foldl_nil]
      omega
    · have hd := ih (n / 10) (Nat.div_lt_self (by omega) (by omega))
      simp only [digitsValue] at hd
      simp only [if_neg h, digitsValue, List.foldl_append, List.foldl_cons, List.foldl_nil, hd,
        digitsValue_digitChar _ (Nat.mod_lt n (by omega : 10 > 0))]
      omega

theorem toDigits_injective (a b : Nat) (h : Nat.toDigits 10 a = Nat.toDigits 10 b) : a = b := by
  have := congrArg digitsValue h
  rwa [digitsValue_toDigits, digitsValue_toDigits] at this

theorem indexKey_data (q : String) (i : Nat) :
    (indexKey q i).data = q.data ++ '[' :: (Nat.toDigits 10 i ++ [']']) := by
  simp [indexKey, Itoa_natCast, Nat.repr, List.asString]

/-! ## Paths of distinct leaves -/

theorem takeWhile_append_stop (p : Char → Bool) : ∀ (a b : List Char),
    (∀ c ∈ a, p c = true) → (∀ c, b.head? = some c → p c = false) →
    (a ++ b).takeWhile p = a
  | [], [], _, _ => rfl
  | [], c :: b, _, hb => by
    simp [List.takeWhile, hb c rfl]
  | x :: a, b, ha, hb => by
    have hx : p x = true := ha x (List.mem_cons_self _ _)
    have ih := takeWhile_append_stop p a b (fun c hc => ha c (List.mem_cons_of_mem _ hc)) hb
    rw [List.cons_append, List.takeWhile_cons, hx]
    simp only [if_true, ih]

theorem eq_of_append_stop (p : Char → Bool) (a a' b b' : List Char)
    (ha : ∀ c ∈ a, p c = true) (ha' : ∀ c ∈ a', p c = true)
    (hb : ∀ c, b.head? = some c → p c = false) (hb' : ∀ c, b'.head? = some c → p c = false)
    (h : a ++ b = a' ++ b') : a = a' := by
  have h1 := takeWhile_append_stop p a b ha hb
  have h2 := takeWhile_append_stop p a' b' ha' hb'
  rw [h] at h1
  exact h1.symm.trans h2

theorem ne_empty_of_data (s : String) (h : s.data ≠ []) : s ≠ "" := by
  intro e
  apply h
  rw [e]

theorem indexKey_ne_empty (q : String) (i : Nat) : indexKey q i ≠ "" := by
  apply ne_empty_of_data
  rw [indexKey_data]
  simp

theorem joinKey_data (q k : String) :
    (joinKey q k).data = (if q = "" then [] else q.data ++ ['.']) ++ k.data := by
  rw [joinKey_eq]
  by_cases hq : q = ""
  · simp [hq]
  · simp [hq]

theorem joinKey_ne_empty (q k : String) (h : q ≠ "" ∨ k ≠ "") : joinKey q k ≠ "" := by
  apply ne_empty_of_data
  rw [joinKey_data]
  by_cases hq : q = ""
  · have hk : k ≠ "" := by
      rcases h with h | h
      · exact absurd hq h
      · exact h
    have : k.data ≠ [] := fun e => hk (String.ext e)
    simpa [hq] using this
  · simp [hq]

mutual
theorem leafPaths_prefix : ∀ (q : String), q ≠ "" → ∀ (v : JValue), ∀ path ∈ leafPaths q v,
    ∃ rest, path.data = q.data ++ rest ∧ ∀ c, rest.head? = some c → c = '.' ∨ c = '['
  | q, _, .bool _, path, h => by
    simp only [leafPaths, List.mem_singleton] at h
    exact ⟨[], by simp [h], by simp⟩
  | q, _, .num _, path, h => by
    simp only [leafPaths, List.mem_singleton] at h
    exact ⟨[], by simp [h], by simp⟩
  | q, _, .str _, path, h => by
    simp only [leafPaths, List.mem_singleton] at h
    exact ⟨[], by simp [h], by simp⟩
  | q, _, .null, path, h => by
    simp only [leafPaths, List.mem_singleton] at h
    exact ⟨[], by simp [h], by simp⟩
  | q, _, .other _ _, path, h => by simp [leafPaths] at h
  | q, hq, .arr vs, path, h => by
    rw [leafPaths] at h
    exact elemPaths_prefix q hq 0 vs path h
  | q, hq, .obj ms, path, h => by
    rw [leafPaths] at h
    exact memberPaths_prefix q hq ms path h
theorem elemPaths_prefix : ∀ (q : String), q ≠ "" → ∀ (i : Nat) (vs : List JValue),
    ∀ path ∈ elemPaths q i vs,
    ∃ rest, path.data = q.data ++ rest ∧ ∀ c, rest.head? = some c → c = '.' ∨ c = '['
  | q, _, i, [], path, h => by simp [elemPaths] at h
  | q, hq, i, v :: vs, path, h => by
    rw [elemPaths, List.mem_append] at h
    rcases h with h | h
    · obtain ⟨rest, hrest, -⟩ := leafPaths_prefix (indexKey q i) (indexKey_ne_empty q i) v path h
      refine ⟨'[' :: (Nat.toDigits 10 i ++ [']']) ++ rest, ?_, ?_⟩
      · rw [hrest, indexKey_data]
        simp
      · intro c hc
        simp only [List.cons_append, List.head?_cons, Option.some.injEq] at hc
        exact Or.inr hc.symm
    · exact elemPaths_prefix q hq (i + 1) vs path h
theorem memberPaths_prefix : ∀ (q : String), q ≠ "" → ∀ (ms : List (String × JValue)),
    ∀ path ∈ memberPaths q ms,
    ∃ rest, path.data = q.data ++ rest ∧ ∀ c, rest.head? = some c → c = '.' ∨ c = '['
  | q, _, [], path, h => by simp [memberPaths] at h
  | q, hq, (k, v) :: ms, path, h => by
    rw [memberPaths, List.mem_append] at h
    rcases h with h | h
    · obtain ⟨rest, hrest, -⟩ :=
        leafPaths_prefix (joinKey q k) (joinKey_ne_empty q k (Or.inl hq)) v path h
      refine ⟨'.' :: k.data ++ rest, ?_, ?_⟩
      · rw [hrest, joinKey_data]
        simp [hq]
      · intro c hc
        simp only [List.cons_append, List.head?_cons, Option.some.injEq] at hc
        exact Or.inl hc.symm
    · exact memberPaths_prefix q hq ms path h
end

theorem mem_elemPaths (q : String) (path : String) : ∀ (vs : List JValue) (i : Nat),
    path ∈ elemPaths q i vs → ∃ j v, i ≤ j ∧ path ∈ leafPaths (indexKey q j) v
  | [], i, h => by simp [elemPaths] at h
  | v :: vs, i, h => by
    rw [elemPaths, List.mem_append] at h
    rcases h with h | h
    · exact ⟨i, v, Nat.le_refl i, h⟩
    · obtain ⟨j, w, hj, hw⟩ := mem_elemPaths q path vs (i + 1) h
      exact ⟨j, w, by omega, hw⟩

theorem index_eq_of_common_path (q path : String) (i j : Nat) (v w : JValue)
    (hv : path ∈ leafPaths (indexKey q i) v) (hw : path ∈ leafPaths (indexKey q j) w) :
    i = j := by
  obtain ⟨r1, h1, -⟩ := leafPaths_prefix _ (indexKey_ne_empty q i) v path hv
  obtain ⟨r2, h2, -⟩ := leafPaths_prefix _ (indexKey_ne_empty q j) w path hw
  rw [h1, indexKey_data, indexKey_data] at h2
  have h3 : Nat.toDigits 10 i ++ (']' :: r1) = Nat.toDigits 10 j ++ (']' :: r2) := by
    simpa using h2
  apply toDigits_injective
  refine eq_of_append_stop (fun c => c != ']') _ _ _ _ ?_ ?_ ?_ ?_ h3
  · intro c hc
    simpa using toDigits_ne_bracket i c hc
  · intro c hc
    simpa using toDigits_ne_bracket j c hc
  · intro c hc
    simp only [List.head?_cons, Option.some.injEq] at hc
    simp [← hc]
  · intro c hc
    simp only [List.head?_cons, Option.some.injEq] at hc
    simp [← hc]

theorem key_eq_of_common_path (q path k k' : String) (v w : JValue)
    (hk : plainKey k = true) (hk' : plainKey k' = true)
    (hv : path ∈ leafPaths (joinKey q k) v) (hw : path ∈ leafPaths (joinKey q k') w) :
    k = k' := by
  simp only [plainKey, Bool.and_eq_true, decide_eq_true_eq, List.all_eq_true] at hk hk'
  obtain ⟨r1, h1, s1⟩ := leafPaths_prefix _ (joinKey_ne_empty q k (Or.inr hk.1)) v path hv
  obtain ⟨r2, h2, s2⟩ := leafPaths_prefix _ (joinKey_ne_empty q k' (Or.inr hk'.1)) w path hw
  rw [h1, joinKey_data, joinKey_data, List.append_assoc, List.append_assoc] at h2
  have h3 : k.data ++ r1 = k'.data ++ r2 := List.append_cancel_left h2
  apply String.ext
  refine eq_of_append_stop (fun c => c != '.' && c != '[') _ _ _ _ ?_ ?_ ?_ ?_ h3
  · intro c hc
    simpa using hk.2 c hc
  · intro c hc
    simpa using hk'.2 c hc
  · intro c hc
    rcases s1 c hc with rfl | rfl <;> decide
  · intro c hc
    rcases s2 c hc with rfl | rfl <;> decide

theorem plainKey_of_mem : ∀ (ms : List (String × JValue)), membersPlainKeys ms = true →
    ∀ kv ∈ ms, plainKey kv.1 = true
  | [], _, kv, hkv => by simp at hkv
  | (k, v) :: rest, h, kv, hkv => by
    simp only [membersPlainKeys, Bool.and_eq_true] at h
    rcases List.mem_cons.mp hkv with rfl | hkv
    · exact h.1.1.1
    · exact plainKey_of_mem rest h.2 kv hkv

mutual
theorem nodup_leafPaths : ∀ (q : String) (v : JValue), v.plainKeys = true →
    (leafPaths q v).Nodup
  | q, .bool _, _ => by simp [leafPaths]
  | q, .num _, _ => by simp [leafPaths]
  | q, .str _, _ => by simp [leafPaths]
  | q, .null, _ => by simp [leafPaths]
  | q, .other _ _, _ => by simp [leafPaths]
  | q, .arr vs, h => by
    rw [leafPaths]
    exact nodup_elemPaths q 0 vs (by simpa [JValue.plainKeys] using h)
  | q, .obj ms, h => by
    rw [leafPaths]
    exact nodup_memberPaths q ms (by simpa [JValue.plainKeys] using h)
theorem nodup_elemPaths : ∀ (q : String) (i : Nat) (vs : List JValue),
    allPlainKeys vs = true → (elemPaths q i vs).Nodup
  | q, i, [], _ => by simp [elemPaths]
  | q, i, v :: vs, h => by
    simp only [allPlainKeys, Bool.and_eq_true] at h
    rw [elemPaths, List.nodup_append]
    refine ⟨nodup_leafPaths (indexKey q i) v h.1, nodup_elemPaths q (i + 1) vs h.2, ?_⟩
    intro path h1 h2
    obtain ⟨j, w, hj, hw⟩ := mem_elemPaths q path vs (i + 1) h2
    have := index_eq_of_common_path q path i j v w h1 hw
    omega
theorem nodup_memberPaths : ∀ (q : String) (ms : List (String × JValue)),
    membersPlainKeys ms = true → (memberPaths q ms).Nodup
  | q, [], _ => by simp [memberPaths]
  | q, (k, v) :: ms, h => by
    simp only [membersPlainKeys, Bool.and_eq_true, decide_eq_true_eq] at h
    rw [memberPaths, List.nodup_append]
    refine ⟨nodup_leafPaths (joinKey q k) v h.1.2, nodup_memberPaths q ms h.2, ?_⟩
    intro path h1 h2
    obtain ⟨⟨k', w⟩, hmem, hw⟩ := (mem_memberPaths q path ms).mp h2
    have hk' := plainKey_of_mem ms h.2 (k', w) hmem
    have hkk := key_eq_of_common_path q path k k' v w h.1.1.1 hk' h1 hw
    apply h.1.1.2
    rw [hkk]
    exact List.mem_map.mpr ⟨(k', w), hmem, rfl⟩
end

mutual
theorem mapKeys_leafEntries (FF : float64 → String) : ∀ (q : String) (v : JValue),
    mapKeys (leafEntries FF q v) = leafPaths q v
  | q, .bool _ => rfl
  | q, .num _ => rfl
  | q, .str _ => rfl
  | q, .null => rfl
  | q, .other _ _ => rfl
  | q, .arr vs => by
    rw [leafEntries, leafPaths]
    exact mapKeys_elemEntries FF q 0 vs
  | q, .obj ms => by
    rw [leafEntries, leafPaths]
    exact mapKeys_memberEntries FF q ms
theorem mapKeys_elemEntries (FF : float64 → String) : ∀ (q : String) (i : Nat)
    (vs : List JValue), mapKeys (elemEntries FF q i vs) = elemPaths q i vs
  | q, i, [] => rfl
  | q, i, v :: vs => by
    have h1 := mapKeys_leafEntries FF (indexKey q i) v
    have h2 := mapKeys_elemEntries FF q (i + 1) vs
    simp only [mapKeys] at h1 h2
    simp only [elemEntries, elemPaths, mapKeys, List.map_append, h1, h2]
theorem mapKeys_memberEntries (FF : float64 → String) : ∀ (q : String)
    (ms : List (String × JValue)), mapKeys (memberEntries FF q ms) = memberPaths q ms
  | q, [] => rfl
  | q, (k, v) :: ms => by
    have h1 := mapKeys_leafEntries FF (joinKey q k) v
    have h2 := mapKeys_memberEntries FF q ms
    simp only [mapKeys] at h1 h2
    simp only [memberEntries, memberPaths, mapKeys, List.map_append, h1, h2]
end

theorem mapAssign_of_not_mem {α : Type} (m : List (String × α)) (k : String) (v : α)
    (h : k ∉ mapKeys m) : mapAssign m k v = m ++ [(k, v)] := by
  induction m with
  | nil => rfl
  | cons e m ih =>
    obtain ⟨k', v'⟩ := e
    have h' : k ≠ k' ∧ k ∉ mapKeys m := by simpa [mapKeys] using h
    have hk : ¬ k' = k := fun e => h'.1 e.symm
    simp [mapAssign, hk, ih h'.2]

theorem mapKeys_append (t e : record) : mapKeys (t ++ e) = mapKeys t ++ mapKeys e := by
  simp [mapKeys]

mutual
theorem flatten_eq_append (FF : float64 → String) : ∀ (q : String) (v : JValue) (t : record),
    v.isJSON = true → (mapKeys t ++ leafPaths q v).Nodup →
    flatten FF q v t = .ok (t ++ leafEntries FF q v)
  | q, .bool b, t, _, h => by
    have hq : q ∉ mapKeys t := by
      intro hm
      exact (List.nodup_append.mp h).2.2 hm (by simp [leafPaths])
    simp [flatten, leafEntries, mapAssign_of_not_mem t q _ hq]
  | q, .num x, t, _, h => by
    have hq : q ∉ mapKeys t := by
      intro hm
      exact (List.nodup_append.mp h).2.2 hm (by simp [leafPaths])
    simp [flatten, leafEntries, mapAssign_of_not_mem t q _ hq]
  | q, .str s, t, _, h => by
    have hq : q ∉ mapKeys t := by
      intro hm
      exact (List.nodup_append.mp h).2.2 hm (by simp [leafPaths])
    simp [flatten, leafEntries, mapAssign_of_not_mem t q _ hq]
  | q, .null, t, _, h => by
    have hq : q ∉ mapKeys t := by
      intro hm
      exact (List.nodup_append.mp h).2.2 hm (by simp [leafPaths])
    simp [flatten, leafEntries, mapAssign_of_not_mem t q _ hq]
  | q, .other _ _, t, hj, _ => by simp [JValue.isJSON] at hj
  | q, .arr vs, t, hj, h => by
    rw [flatten, leafEntries]
    rw [leafPaths] at h
    exact flattenElems_eq_append FF q 0 vs t (by simpa [JValue.isJSON] using hj) h
  | q, .obj ms, t, hj, h => by
    rw [flatten, leafEntries]
    rw [leafPaths] at h
    exact flattenMembers_eq_append FF q ms t (by simpa [JValue.isJSON] using hj) h
theorem flattenElems_eq_append (FF : float64 → String) : ∀ (q : String) (i : Nat)
    (vs : List JValue) (t : record), allJSON vs = true →
    (mapKeys t ++ elemPaths q i vs).Nodup →
    flattenElems FF q i vs t = .ok (t ++ elemEntries FF q i vs)
  | q, i, [], t, _, _ => by simp [flattenElems, elemEntries]
  | q, i, v :: vs, t, hj, h => by
    simp only [allJSON, Bool.and_eq_true] at hj
    rw [elemPaths, ← List.append_assoc] at h
    have h1 := flatten_eq_append FF (indexKey q i) v t hj.1 (List.nodup_append.mp h).1
    rw [flattenElems, h1]
    have h2 := flattenElems_eq_append FF q (i + 1) vs (t ++ leafEntries FF (indexKey q i) v)
      hj.2 (by rw [mapKeys_append, mapKeys_leafEntries]; exact h)
    simp only [h2, elemEntries, List.append_assoc]
theorem flattenMembers_eq_append (FF : float64 → String) : ∀ (q : String)
    (ms : List (String × JValue)) (t : record), allMembersJSON ms = true →
    (mapKeys t ++ memberPaths q ms).Nodup →
    flattenMembers FF q ms t = .ok (t ++ memberEntries FF q ms)
  | q, [], t, _, _ => by simp [flattenMembers, memberEntries]
  | q, (k, v) :: ms, t, hj, h => by
    simp only [allMembersJSON, Bool.and_eq_true] at hj
    rw [memberPaths, ← List.append_assoc] at h
    have h1 := flatten_eq_append FF (joinKey q k) v t hj.1 (List.nodup_append.mp h).1
    rw [flattenMembers, h1]
    have h2 := flattenMembers_eq_append FF q ms (t ++ leafEntries FF (joinKey q k) v)
      hj.2 (by rw [mapKeys_append, mapKeys_leafEntries]; exact h)
    simp only [h2, memberEntries, List.append_assoc]
end

theorem flatten_eq_leafEntries (FF : float64 → String) (q : String) (v : JValue)
    (hj : v.isJSON = true) (hn : (leafPaths q v).Nodup) :
    flatten FF q v [] = .ok (leafEntries FF q v) := by
  have := flatten_eq_append FF q v [] hj (by simpa [mapKeys] using hn)
  simpa using this

/-- C19: for every prefix and every JSON value in which no object key is
empty or holds `.` or `[` (the keys of an object being pairwise different),
the scalar leaves get pairwise different paths, and `flatten` into an empty
target returns the record that has one entry for each scalar leaf, in the
order of the traversal: no assignment overwrites another. Without the
restriction this fails: `{"a.b":1,"a":{"b":2}}` and `{"a":2,"":{"a":1}}`
have two leaves each and give a record of one entry. -/
theorem distinct_paths_of_plain_keys (FF : float64 → String) (pfx : String) (v : JValue)
    (hjson : v.isJSON = true) (hkeys : v.plainKeys = true) :
    (leafPaths pfx v).Nodup ∧
    flatten FF pfx v [] = .ok (leafEntries FF pfx v) ∧
    mapKeys (leafEntries FF pfx v) = leafPaths pfx v ∧
    (∃ r, flatten FF ""
        (.obj [("a.b", .num ⟨0x3FF0000000000000⟩),
          ("a", .obj [("b", .num ⟨0x4000000000000000⟩)])]) [] = .ok r ∧
      r.length = 1 ∧
      (leafEntries FF ""
        (.obj [("a.b", .num ⟨0x3FF0000000000000⟩),
          ("a", .obj [("b", .num ⟨0x4000000000000000⟩)])])).length = 2) ∧
    (∃ r, flatten FF ""
        (.obj [("a", .num ⟨0x4000000000000000⟩),
          ("", .obj [("a", .num ⟨0x3FF0000000000000⟩)])]) [] = .ok r ∧
      r.length = 1 ∧
      (leafEntries FF ""
        (.obj [("a", .num ⟨0x4000000000000000⟩),
          ("", .obj [("a", .num ⟨0x3FF0000000000000⟩)])])).length = 2) := by
  have hn := nodup_leafPaths pfx v hkeys
  exact ⟨hn, flatten_eq_leafEntries FF pfx v hjson hn, mapKeys_leafEntries FF pfx v,
    ⟨_, rfl, rfl, rfl⟩, ⟨_, rfl, rfl, rfl⟩⟩

theorem distinct_paths_of_plain_keys_witness :
    (JValue.obj [("a", .arr [.str "s", .arr [.null]]), ("a]", .obj [("c", .bool true)])]).isJSON
      = true ∧
    (JValue.obj [("a", .arr [.str "s", .arr [.null]]),
      ("a]", .obj [("c", .bool true)])]).plainKeys = true ∧
    ((leafPaths "p"
      (.obj [("a", .arr [.str "s", .arr [.null]]), ("a]", .obj [("c", .bool true)])])).Nodup ∧
    flatten formatIntegral "p"
      (.obj [("a", .arr [.str "s", .arr [.null]]), ("a]", .obj [("c", .bool true)])]) [] =
      .ok (leafEntries formatIntegral "p"
        (.obj [("a", .arr [.str "s", .arr [.null]]), ("a]", .obj [("c", .bool true)])])) ∧
    mapKeys (leafEntries formatIntegral "p"
      (.obj [("a", .arr [.str "s", .arr [.null]]), ("a]", .obj [("c", .bool true)])])) =
      leafPaths "p"
        (.obj [("a", .arr [.str "s", .arr [.null]]), ("a]", .obj [("c", .bool true)])]) ∧
    (∃ r, flatten formatIntegral ""
        (.obj [("a.b", .num ⟨0x3FF0000000000000⟩),
          ("a", .obj [("b", .num ⟨0x4000000000000000⟩)])]) [] = .ok r ∧
      r.length = 1 ∧
      (leafEntries formatIntegral ""
        (.obj [("a.b", .num ⟨0x3FF0000000000000⟩),
          ("a", .obj [("b", .num ⟨0x4000000000000000⟩)])])).length = 2) ∧
    (∃ r, flatten formatIntegral ""
        (.obj [("a", .num ⟨0x4000000000000000⟩),
          ("", .obj [("a", .num ⟨0x3FF0000000000000⟩)])]) [] = .ok r ∧
      r.length = 1 ∧
      (leafEntries formatIntegral ""
        (.obj [("a", .num ⟨0x4000000000000000⟩),
          ("", .obj [("a", .num ⟨0x3FF0000000000000⟩)])])).length = 2)) :=
  ⟨by decide, by decide, distinct_paths_of_plain_keys formatIntegral "p" _ (by decide) (by decide)⟩

/-- Instances of C19 evaluated: a value with plain keys, and the two values
of the claim in which two leaves share a path, where the later assignment
overwrites the earlier one. -/
theorem distinct_paths_examples :
    flatten formatIntegral "p"
      (.obj [("a", .arr [.str "s", .arr [.null]]), ("a]", .obj [("c", .bool true)])]) [] =
      .ok [("p.a[0]", "s"), ("p.a[1][0]", "null"), ("p.a].c", "true")] ∧
    flatten formatIntegral ""
      (.obj [("a.b", .num ⟨0x3FF0000000000000⟩),
        ("a", .obj [("b", .num ⟨0x4000000000000000⟩)])]) [] = .ok [("a.b", "2")] ∧
    flatten formatIntegral ""
      (.obj [("a", .num ⟨0x4000000000000000⟩),
        ("", .obj [("a", .num ⟨0x3FF0000000000000⟩)])]) [] = .ok [("a", "1")] := by
  decide

/-! ## Traversal order -/

theorem mem_of_mapLookup {α : Type} (m : List (String × α)) (k : String) (x : α)
    (h : mapLookup m k = some x) : (k, x) ∈ m := by
  induction m with
  | nil => simp [mapLookup] at h
  | cons e m ih =>
    obtain ⟨k', v'⟩ := e
    by_cases hk : k' = k
    · simp only [mapLookup, hk, if_true, Option.some.injEq] at h
      simp [hk, h]
    · simp only [mapLookup, hk, if_false] at h
      exact List.mem_cons_of_mem _ (ih h)

theorem mapLookup_of_mem {α : Type} (m : List (String × α)) (k : String) (x : α)
    (hn : (mapKeys m).Nodup) (h : (k, x) ∈ m) : mapLookup m k = some x := by
  induction m with
  | nil => simp at h
  | cons e m ih =>
    obtain ⟨k', v'⟩ := e
    have hn' : k' ∉ mapKeys m ∧ (mapKeys m).Nodup := by simpa [mapKeys] using hn
    rcases List.mem_cons.mp h with h | h
    · cases h
      simp [mapLookup]
    · have hk : ¬ k' = k := by
        rintro rfl
        exact hn'.1 (List.mem_map.mpr ⟨(k', x), h, rfl⟩)
      simp only [mapLookup, hk, if_false]
      exact ih hn'.2 h

theorem mapLookup_congr (r1 r2 : record) (h1 : (mapKeys r1).Nodup) (h2 : (mapKeys r2).Nodup)
    (h : ∀ e, e ∈ r1 ↔ e ∈ r2) (key : String) : mapLookup r1 key = mapLookup r2 key := by
  apply Option.ext
  intro x
  constructor
  · intro hx
    exact mapLookup_of_mem r2 key x h2 ((h _).mp (mem_of_mapLookup r1 key x hx))
  · intro hx
    exact mapLookup_of_mem r1 key x h1 ((h _).mpr (mem_of_mapLookup r2 key x hx))

theorem mem_memberEntries (FF : float64 → String) (q : String) (e : String × String) :
    ∀ (ms : List (String × JValue)),
      e ∈ memberEntries FF q ms ↔ ∃ kv ∈ ms, e ∈ leafEntries FF (joinKey q kv.1) kv.2
  | [] => by simp [memberEntries]
  | (k, v) :: rest => by
    rw [memberEntries, List.mem_append, mem_memberEntries FF q e rest]
    simp

mutual
theorem leafEntries_subset_of_within (FF : float64 → String) : ∀ (q : String) (v w : JValue),
    v.within w = true → ∀ e ∈ leafEntries FF q v, e ∈ leafEntries FF q w
  | q, .bool a, w, h, e, he => by
    cases w <;> simp [JValue.within] at h
    subst h
    exact he
  | q, .num a, w, h, e, he => by
    cases w <;> simp [JValue.within] at h
    subst h
    exact he
  | q, .str a, w, h, e, he => by
    cases w <;> simp [JValue.within] at h
    subst h
    exact he
  | q, .null, w, h, e, he => by
    cases w <;> simp [JValue.within] at h
    exact he
  | q, .other _ _, w, h, e, he => by simp [leafEntries] at he
  | q, .arr vs, w, h, e, he => by
    cases w <;> simp only [JValue.within, Bool.false_eq_true] at h
    rw [leafEntries] at he ⊢
    exact elemEntries_subset_of_within FF q 0 vs _ h e he
  | q, .obj ms, w, h, e, he => by
    cases w <;> simp only [JValue.within, Bool.false_eq_true] at h
    rw [leafEntries] at he ⊢
    exact memberEntries_subset_of_within FF q ms _ h e he
theorem elemEntries_subset_of_within (FF : float64 → String) : ∀ (q : String) (i : Nat)
    (vs ws : List JValue), elemsWithin vs ws = true →
    ∀ e ∈ elemEntries FF q i vs, e ∈ elemEntries FF q i ws
  | q, i, [], ws, _, e, he => by simp [elemEntries] at he
  | q, i, v :: vs, [], h, e, he => by simp [elemsWithin] at h
  | q, i, v :: vs, w :: ws, h, e, he => by
    simp only [elemsWithin, Bool.and_eq_true] at h
    rw [elemEntries, List.mem_append] at he ⊢
    rcases he with he | he
    · exact Or.inl (leafEntries_subset_of_within FF (indexKey q i) v w h.1 e he)
    · exact Or.inr (elemEntries_subset_of_within FF q (i + 1) vs ws h.2 e he)
theorem memberEntries_subset_of_within (FF : float64 → String) : ∀ (q : String)
    (ms ns : List (String × JValue)), membersWithin ms ns = true →
    ∀ e ∈ memberEntries FF q ms, e ∈ memberEntries FF q ns
  | q, [], ns, _, e, he => by simp [memberEntries] at he
  | q, (k, v) :: ms, ns, h, e, he => by
    simp only [membersWithin, Bool.and_eq_true] at h
    rw [memberEntries, List.mem_append] at he
    rcases he with he | he
    · cases hl : mapLookup ns k with
      | none => simp [hl] at h
      | some w =>
        have hw : v.within w = true := by simpa [hl] using h.1
        have := leafEntries_subset_of_within FF (joinKey q k) v w hw e he
        exact (mem_memberEntries FF q e ns).mpr ⟨(k, w), mem_of_mapLookup ns k w hl, this⟩
    · exact memberEntries_subset_of_within FF q ms ns h.2 e he
end

mutual
theorem isJSON_of_within : ∀ (v w : JValue), v.within w = true → v.isJSON = true
  | .bool _, _, _ => rfl
  | .num _, _, _ => rfl
  | .str _, _, _ => rfl
  | .null, _, _ => rfl
  | .other _ _, w, h => by simp [JValue.within] at h
  | .arr vs, w, h => by
    cases w <;> simp only [JValue.within, Bool.false_eq_true] at h
    rw [JValue.isJSON]
    exact allJSON_of_within vs _ h
  | .obj ms, w, h => by
    cases w <;> simp only [JValue.within, Bool.false_eq_true] at h
    rw [JValue.isJSON]
    exact allMembersJSON_of_within ms _ h
theorem allJSON_of_within : ∀ (vs ws : List JValue), elemsWithin vs ws = true →
    allJSON vs = true
  | [], _, _ => rfl
  | v :: vs, [], h => by simp [elemsWithin] at h
  | v :: vs, w :: ws, h => by
    simp only [elemsWithin, Bool.and_eq_true] at h
    simp only [allJSON, Bool.and_eq_true]
    exact ⟨isJSON_of_within v w h.1, allJSON_of_within vs ws h.2⟩
theorem allMembersJSON_of_within : ∀ (ms ns : List (String × JValue)),
    membersWithin ms ns = true → allMembersJSON ms = true
  | [], _, _ => rfl
  | (k, v) :: ms, ns, h => by
    simp only [membersWithin, Bool.and_eq_true] at h
    simp only [allMembersJSON, Bool.and_eq_true]
    refine ⟨?_, allMembersJSON_of_within ms ns h.2⟩
    cases hl : mapLookup ns k with
    | none => simp [hl] at h
    | some w => exact isJSON_of_within v w (by simpa [hl] using h.1)
end

/-! ## `tabular` on records that are equal as maps -/

theorem mem_mapKeys_congr (r1 r2 : record) (h : ∀ key, mapLookup r1 key = mapLookup r2 key)
    (key : String) : key ∈ mapKeys r1 ↔ key ∈ mapKeys r2 := by
  have h1 := mapLookup_eq_none_iff r1 key
  have h2 := mapLookup_eq_none_iff r2 key
  rw [h key] at h1
  constructor
  · intro hk
    by_contra hn
    exact (h1.mp (h2.mpr hn)) hk
  · intro hk
    by_contra hn
    exact (h2.mp (h1.mpr hn)) hk

theorem columns_congr (rs1 rs2 : List record)
    (h : List.Forall₂ (fun r1 r2 => ∀ key, mapLookup r1 key = mapLookup r2 key) rs1 rs2) :
    columns rs1 = columns rs2 := by
  have hmem : ∀ key, (∃ r ∈ rs1, key ∈ mapKeys r) ↔ ∃ r ∈ rs2, key ∈ mapKeys r := by
    intro key
    induction h with
    | nil => simp
    | cons hr _ ih =>
      simp only [List.mem_cons, exists_eq_or_imp]
      rw [ih, mem_mapKeys_congr _ _ hr key]
  have hs1 := columns_strict rs1
  have hs2 := columns_strict rs2
  have hn1 : (columns rs1).Nodup := hs1.imp (fun h => ne_of_lt h)
  have hn2 : (columns rs2).Nodup := hs2.imp (fun h => ne_of_lt h)
  have hperm : (columns rs1).Perm (columns rs2) :=
    (List.perm_ext_iff_of_nodup hn1 hn2).mpr
      (fun key => by rw [mem_columns, mem_columns, hmem key])
  exact List.eq_of_perm_of_sorted hperm hs1 hs2

theorem rows_congr (cols : List String) (rs1 rs2 : List record)
    (h : List.Forall₂ (fun r1 r2 => ∀ key, mapLookup r1 key = mapLookup r2 key) rs1 rs2) :
    rs1.map (fun r => cols.map (fun k => recordIndex r k)) =
      rs2.map (fun r => cols.map (fun k => recordIndex r k)) := by
  induction h with
  | nil => rfl
  | cons hr _ ih =>
    rw [List.map_cons, List.map_cons, ih]
    simp only [recordIndex, hr]

theorem tabular_congr (rs1 rs2 : List record) (comma : Char)
    (h : List.Forall₂ (fun r1 r2 => ∀ key, mapLookup r1 key = mapLookup r2 key) rs1 rs2) :
    tabular rs1 comma = tabular rs2 comma := by
  cases hc : validDelim comma with
  | false => rw [tabular_invalidDelim rs1 comma hc, tabular_invalidDelim rs2 comma hc]
  | true =>
    rw [tabular_ok rs1 comma hc, tabular_ok rs2 comma hc, columns_congr rs1 rs2 h,
      rows_congr (columns rs2) rs1 rs2 h]

/-- C14, as the specification states it, fails: `{"a.b":1,"a":{"b":2}}` has
pairwise different keys in each object, and its two traversal orders give
different records, `{a.b: 2}` and `{a.b: 1}`, and so different tables. -/
theorem traversal_order_changes_record :
    (JValue.obj [("a.b", .num ⟨0x3FF0000000000000⟩),
      ("a", .obj [("b", .num ⟨0x4000000000000000⟩)])]).sameJSON
      (.obj [("a", .obj [("b", .num ⟨0x4000000000000000⟩)]),
        ("a.b", .num ⟨0x3FF0000000000000⟩)]) = true ∧
    flatten formatIntegral ""
      (.obj [("a.b", .num ⟨0x3FF0000000000000⟩),
        ("a", .obj [("b", .num ⟨0x4000000000000000⟩)])]) [] = .ok [("a.b", "2")] ∧
    flatten formatIntegral ""
      (.obj [("a", .obj [("b", .num ⟨0x4000000000000000⟩)]),
        ("a.b", .num ⟨0x3FF0000000000000⟩)]) [] = .ok [("a.b", "1")] ∧
    tabular [[("a.b", "2")]] ',' = .ok [["a.b"], ["2"]] ∧
    tabular [[("a.b", "1")]] ',' = .ok [["a.b"], ["1"]] ∧
    tabular [[("a.b", "2")]] ',' ≠ tabular [[("a.b", "1")]] ',' := by
  decide

/-- C14 as amended: for every prefix and every JSON value whose scalar
leaves get pairwise different paths (as they do when no object key is empty
or holds `.` or `[`), any two traversal orders of the value give records
that are equal as maps, with the same keys and the same value for each key,
and `tabular` writes the same table for them. -/
theorem traversal_order_irrelevant_without_collisions (FF : float64 → String)
    (pfx : String) (v w : JValue) (comma : Char) (hsame : v.sameJSON w = true)
    (hv : (leafPaths pfx v).Nodup) (hw : (leafPaths pfx w).Nodup) :
    ∃ r1 r2, flatten FF pfx v [] = .ok r1 ∧ flatten FF pfx w [] = .ok r2 ∧
      (∀ key, key ∈ mapKeys r1 ↔ key ∈ mapKeys r2) ∧
      (∀ key, mapLookup r1 key = mapLookup r2 key) ∧
      tabular [r1] comma = tabular [r2] comma := by
  simp only [JValue.sameJSON, Bool.and_eq_true] at hsame
  have hjv := isJSON_of_within v w hsame.1
  have hjw := isJSON_of_within w v hsame.2
  have hlook : ∀ key, mapLookup (leafEntries FF pfx v) key =
      mapLookup (leafEntries FF pfx w) key :=
    mapLookup_congr _ _ (by rw [mapKeys_leafEntries]; exact hv)
      (by rw [mapKeys_leafEntries]; exact hw)
      (fun e => ⟨leafEntries_subset_of_within FF pfx v w hsame.1 e,
        leafEntries_subset_of_within FF pfx w v hsame.2 e⟩)
  exact ⟨_, _, flatten_eq_leafEntries FF pfx v hjv hv, flatten_eq_leafEntries FF pfx w hjw hw,
    mem_mapKeys_congr _ _ hlook, hlook,
    tabular_congr _ _ comma (List.Forall₂.cons hlook List.Forall₂.nil)⟩

theorem traversal_order_irrelevant_without_collisions_witness :
    (JValue.obj [("a", .str "s"), ("b", .obj [("c", .null), ("d", .arr [.bool true])])]).sameJSON
      (.obj [("b", .obj [("d", .arr [.bool true]), ("c", .null)]), ("a", .str "s")]) = true ∧
    (leafPaths "p"
      (.obj [("a", .str "s"), ("b", .obj [("c", .null), ("d", .arr [.bool true])])])).Nodup ∧
    (leafPaths "p"
      (.obj [("b", .obj [("d", .arr [.bool true]), ("c", .null)]), ("a", .str "s")])).Nodup ∧
    ∃ r1 r2,
      flatten formatIntegral "p"
        (.obj [("a", .str "s"), ("b", .obj [("c", .null), ("d", .arr [.bool true])])]) [] =
        .ok r1 ∧
      flatten formatIntegral "p"
        (.obj [("b", .obj [("d", .arr [.bool true]), ("c", .null)]), ("a", .str "s")]) [] =
        .ok r2 ∧
      (∀ key, key ∈ mapKeys r1 ↔ key ∈ mapKeys r2) ∧
      (∀ key, mapLookup r1 key = mapLookup r2 key) ∧
      tabular [r1] ',' = tabular [r2] ',' :=
  ⟨by decide, by decide, by decide,
    traversal_order_irrelevant_without_collisions formatIntegral "p" _ _ ',' (by decide)
      (by decide) (by decide)⟩

/-- An instance of the amended C14 evaluated: the two orders give the
entries in different order, and the same table. -/
theorem traversal_order_example :
    flatten formatIntegral "p"
      (.obj [("a", .str "s"), ("b", .obj [("c", .null), ("d", .arr [.bool true])])]) [] =
      .ok [("p.a", "s"), ("p.b.c", "null"), ("p.b.d[0]", "true")] ∧
    flatten formatIntegral "p"
      (.obj [("b", .obj [("d", .arr [.bool true]), ("c", .null)]), ("a", .str "s")]) [] =
      .ok [("p.b.d[0]", "true"), ("p.b.c", "null"), ("p.a", "s")] ∧
    tabular [[("p.a", "s"), ("p.b.c", "null"), ("p.b.d[0]", "true")]] ',' =
      .ok [["p.a", "p.b.c", "p.b.d[0]"], ["s", "null", "true"]] ∧
    tabular [[("p.b.d[0]", "true"), ("p.b.c", "null"), ("p.a", "s")]] ',' =
      .ok [["p.a", "p.b.c", "p.b.d[0]"], ["s", "null", "true"]] := by
  decide

end FlattenJson
